import Mathlib

/-!
# restque: a priority-ordered request scheduler

A shallow embedding of `src/lib/priority-queue.js` and `src/lib/restque.js`.

* JavaScript arrays are Lean lists; a `while` loop whose variant is visible in its condition is a
  structural recursion on that variant.
* JavaScript objects that are mutated through aliases (the request records) live in a store
  `heap : Nat → Request`; a reference is a natural number.
* Loops whose bound is not syntactic (`_processQueue`, the recursion of `cancel`) carry fuel and
  return `none` when the fuel does not suffice; the theorems prove that they return `some`.
-/

namespace Restque

/-! ## `src/lib/priority-queue.js` -/

namespace comparison_result

/-- The constant `comparison_result.ascending`. -/
def ascending : Int := -1

/-- The constant `comparison_result.same`. -/
def same : Int := 0

/-- The constant `comparison_result.descending`. -/
def descending : Int := 1

end comparison_result

namespace priority_queue

variable {α : Type}

/-- The method `_compareObjects(a, b)`: the comparer supplied to the constructor, applied. -/
def _compareObjects (comparer : α → α → Int) (a b : α) : Int :=
  comparer a b

/-- The method `_bubbleUpFrom(index)`. The loop `while (0 < index)` is a recursion on `index`;
`parentIndex = index - 1`. Reading outside the array (which `add` never does) would hand
`undefined` to the comparer; the embedding leaves the array as it is there. -/
def _bubbleUpFrom (comparer : α → α → Int) : List α → Nat → List α
  | q, 0 => q
  | q, parentIndex + 1 =>
    match q[parentIndex]?, q[parentIndex + 1]? with
    | some parentObject, some object =>
      if _compareObjects comparer parentObject object < comparison_result.same then
        _bubbleUpFrom comparer ((q.set (parentIndex + 1) parentObject).set parentIndex object)
          parentIndex
      else q
    | _, _ => q

/-- The loop of `_bubbleDownFrom`: `while (index < endIndex)`. The first argument is the loop
variant `endIndex - index`, which is zero exactly when the loop condition fails, and which
drops by one with `index = childIndex`. -/
def bubbleDownLoop (comparer : α → α → Int) : Nat → List α → Nat → List α
  | 0, q, _ => q
  | n + 1, q, index =>
    match q[index + 1]?, q[index]? with
    | some childObject, some object =>
      if _compareObjects comparer childObject object > comparison_result.same then
        bubbleDownLoop comparer n ((q.set index childObject).set (index + 1) object) (index + 1)
      else q
    | _, _ => q

/-- The method `_bubbleDownFrom(index)`, with `endIndex = this._queue.length - 1`. -/
def _bubbleDownFrom (comparer : α → α → Int) (q : List α) (index : Nat) : List α :=
  bubbleDownLoop comparer (q.length - 1 - index) q index

/-- The method `add(object)`: `push`, then bubble up from the last index. -/
def add (comparer : α → α → Int) (q : List α) (object : α) : List α :=
  let pushed := q ++ [object]
  let objectIndex := pushed.length - 1
  _bubbleUpFrom comparer pushed objectIndex

/-- The method `removeAtIndex(index)`. The index is any integer; the guard is the source's
`this._queue.length >= index && index >= 0`, so `index = length` passes it. -/
def removeAtIndex (comparer : α → α → Int) (q : List α) (index : Int) : List α :=
  if (q.length : Int) ≥ index ∧ index ≥ 0 then
    let i := index.toNat
    let q1 :=
      if index < (q.length : Int) - 1 then
        match q[q.length - 1]? with
        | some last => q.set i last
        | none => q
      else q
    let q2 := q1.dropLast
    _bubbleDownFrom comparer q2 i
  else q

/-- The `for` loop of `remove(object)`: the first index `i` with `this._queue[i] === object`,
started at index `i`. -/
def searchFrom [DecidableEq α] (object : α) : List α → Nat → Option Nat
  | [], _ => none
  | x :: rest, i => if x = object then some i else searchFrom object rest (i + 1)

/-- The method `remove(object)`. -/
def remove [DecidableEq α] (comparer : α → α → Int) (q : List α) (object : α) : List α :=
  match searchFrom object q 0 with
  | some objectIndex => removeAtIndex comparer q (objectIndex : Int)
  | none => q

/-- The method `peek()`; `none` is JavaScript's `null`. -/
def peek (q : List α) : Option α :=
  if q.length ≤ 0 then none else q[0]?

/-- The method `next()`: the returned object (`none` for `null`) and the array afterwards. -/
def next (comparer : α → α → Int) (q : List α) : Option α × List α :=
  if q.length ≤ 0 then (none, q)
  else (peek q, removeAtIndex comparer q 0)

/-- What `peekAtIndex` can return: `null`, `undefined` (the slot `index = length`, which the
guard lets through) or an object of the array. -/
inductive Peeked (α : Type) where
  | null : Peeked α
  | undefined : Peeked α
  | object : α → Peeked α
  deriving DecidableEq, Repr

/-- The method `peekAtIndex(index)`. -/
def peekAtIndex (q : List α) (index : Int) : Peeked α :=
  if (q.length : Int) < index ∨ index < 0 then Peeked.null
  else
    match q[index.toNat]? with
    | some object => Peeked.object object
    | none => Peeked.undefined

/-- The method `count()`. -/
def count (q : List α) : Nat :=
  q.length

/-- What `_bubbleUpFrom` does to the part of the array before the object `x`, given nearest
neighbour first: `x` passes every parent that compares below it and stops at the first that
does not. -/
def insRev (comparer : α → α → Int) (x : α) : List α → List α
  | [] => [x]
  | p :: ps => if comparer p x < 0 then p :: insRev comparer x ps else x :: p :: ps

/-- What `_bubbleDownFrom` does to the part of the array after the object `x`: `x` passes every
child that compares above it and stops at the first that does not. -/
def sink (comparer : α → α → Int) (x : α) : List α → List α
  | [] => [x]
  | c :: rest => if comparer c x > 0 then c :: sink comparer x rest else x :: c :: rest

end priority_queue

/-! ## `src/lib/restque.js`: the request record and its comparer -/

/-- The object `$.ajax` returns, kept in `request.handle`. The scheduler only ever calls
`abort()` on it; `aborted` counts those calls. -/
structure Handle where
  aborted : Nat
  deriving DecidableEq, Repr

/-- The request object literal built in `_queueRequest`, plus the `handle` that `_doRequest`
adds. Identifiers (GUID strings) and the caller's callback and context objects are natural
numbers; `done = none` stands for any value that is not a function, `context = none` for a
falsy context. -/
structure Request where
  id : Nat
  url : String
  method : String
  data : Option String
  priority : Int
  done : Option Nat
  context : Option Nat
  timeout : Option Nat
  restque_id : Nat
  is_cancelled : Bool
  quiet : Bool
  handle : Option Handle
  deriving DecidableEq, Repr

/-- The function `_requestPriorityComparer(a, b)`. -/
def _requestPriorityComparer (a b : Request) : Int :=
  if a.priority = b.priority then 0
  else if a.priority > b.priority then 1
  else -1

/-! ## `src/lib/restque.js`: the scheduler

Every instance other than `window.restque` is made by `taggedRestque`, which overwrites the new
instance's `_queue` with the caller's: all instances hold the same `PriorityQueue` object, the
field `_queue` of the state below. The `_http_client` objects have no state of their own.

The transport (`$.ajax`) is outside the repository. A call handed to it is outstanding until
its `complete` callback runs `_requestCompleted`, once, at a time of the transport's choosing,
also after `abort()`. Callbacks of the caller (`done`, event handlers) are recorded as effects;
what they go on to call is a later action of the trace. -/

/-- The response object that `http-client.js` builds in `complete`. -/
structure Response where
  status_code : Int
  body : String
  deriving DecidableEq, Repr

/-- The two event names that `restque.js` passes to `trigger`. -/
inductive EventName where
  | authentication_required : EventName
  | request_failed : EventName
  deriving DecidableEq, Repr

/-- The calls out of the scheduler that a caller can observe. `trigger scope name request
response` is `this.trigger(name, [request, response])`; `done_apply fn context err request
response` is `request.done.apply(request.context, [err, request, response])`; `done_call` is
`request.done(err, request, response)`. Requests are references into the store. -/
inductive Effect where
  | trigger : Nat → EventName → Nat → Response → Effect
  | done_apply : Nat → Nat → Option String → Nat → Response → Effect
  | done_call : Nat → Option String → Nat → Response → Effect
  deriving DecidableEq, Repr

/-- The fields of a `restque` instance that the code reads or writes. `_requests_in_progress` is
a JavaScript object used as a map from `request.id` to the request: a list of key and reference
in insertion order. `_processQueueTimer` tells whether a timeout set by `_setQueueTimer` is
pending. -/
structure restque where
  _id : Nat
  _requests_in_progress : List (Nat × Nat)
  _requests_in_progress_count : Int
  _max_requests : Int
  _queue_timer_interval : Nat
  _processQueueTimer : Bool
  deriving DecidableEq, Repr

/-- The constructor `restque()`, given the GUID that `_generateGuid()` returns. -/
def restque.new (guid : Nat) : restque :=
  { _id := guid
    _requests_in_progress := []
    _requests_in_progress_count := 0
    _max_requests := 2
    _queue_timer_interval := 500
    _processQueueTimer := false }

/-- The state of the program: the store of request objects (`allocated` of them exist), the
shared queue array (references), the instances (`instances` of them exist, number 0 is
`window.restque`), the outstanding transport calls (the instance passed as context, and the
request) and the effects so far, oldest first. -/
structure World where
  heap : Nat → Request
  allocated : Nat
  _queue : List Nat
  scopes : Nat → restque
  instances : Nat
  ajax : List (Nat × Nat)
  effects : List Effect

/-- A request object with nothing in it, for the unused part of the store. -/
def Request.blank : Request :=
  { id := 0, url := "", method := "", data := none, priority := 0, done := none,
    context := none, timeout := none, restque_id := 0, is_cancelled := false, quiet := false,
    handle := none }

/-- The state after the module body has run `window.restque = new restque()`. -/
def World.init (guid : Nat) : World :=
  { heap := fun _ => Request.blank
    allocated := 0
    _queue := []
    scopes := fun _ => restque.new guid
    instances := 1
    ajax := []
    effects := [] }

/-- The comparer of the shared queue: `_requestPriorityComparer` on the referenced objects. -/
def World.comparer (w : World) : Nat → Nat → Int :=
  fun a b => _requestPriorityComparer (w.heap a) (w.heap b)

/-- Reading a property of a JavaScript object used as a map: `o[key]`. -/
def objGet (o : List (Nat × Nat)) (key : Nat) : Option Nat :=
  match o with
  | [] => none
  | (k, v) :: rest => if k = key then some v else objGet rest key

/-- Writing a property: `o[key] = value`. An existing key keeps its place. -/
def objSet (o : List (Nat × Nat)) (key value : Nat) : List (Nat × Nat) :=
  match o with
  | [] => [(key, value)]
  | (k, v) :: rest => if k = key then (k, value) :: rest else (k, v) :: objSet rest key value

/-- Deleting a property: `delete o[key]`. -/
def objDelete (o : List (Nat × Nat)) (key : Nat) : List (Nat × Nat) :=
  o.filter (fun kv => decide (kv.1 ≠ key))

/-- The method `_setQueueTimer()`: any pending timeout is cleared and one is set. -/
def _setQueueTimer (w : World) (self : Nat) : World :=
  { w with
    scopes := Function.update w.scopes self
      { w.scopes self with _processQueueTimer := true } }

/-- The method `_shouldProcessQueue()`. -/
def _shouldProcessQueue (w : World) (self : Nat) : Bool :=
  match priority_queue.peek w._queue with
  | none => false
  | some _ =>
    if (w.scopes self)._requests_in_progress_count ≥ (w.scopes self)._max_requests then false
    else true

/-- The method `_doRequest(request)`: the transport call becomes outstanding and returns a
fresh handle. -/
def _doRequest (w : World) (self : Nat) (request : Nat) : World :=
  let heap1 := Function.update w.heap request
    { w.heap request with handle := some { aborted := 0 } }
  let s := w.scopes self
  { w with
    heap := heap1
    ajax := w.ajax ++ [(self, request)]
    scopes := Function.update w.scopes self
      { s with
        _requests_in_progress := objSet s._requests_in_progress (heap1 request).id request
        _requests_in_progress_count := s._requests_in_progress_count + 1 } }

/-- The body of the `while` loop of `_processQueue`. `none`: `next()` returned `null`, and
reading `is_cancelled` of it throws. -/
def processTurn (w : World) (self : Nat) : Option World :=
  let r := priority_queue.next w.comparer w._queue
  match r.1 with
  | none => none
  | some next_request =>
    let w1 := { w with _queue := r.2 }
    some (if !(w1.heap next_request).is_cancelled then _doRequest w1 self next_request else w1)

/-- The `while` loop of `_processQueue`, with fuel. `none`: the fuel ran out with the loop
condition still true, or the body threw. -/
def processLoop : Nat → World → Nat → Option World
  | 0, w, self => if _shouldProcessQueue w self then none else some w
  | fuel + 1, w, self =>
    if _shouldProcessQueue w self then
      match processTurn w self with
      | none => none
      | some w1 => processLoop fuel w1 self
    else some w

/-- The method `_processQueue(kicked)`. Each turn of the loop takes one object off the queue, so
its length is fuel enough. -/
def _processQueue (w : World) (self : Nat) (kicked : Bool) : Option World :=
  match processLoop w._queue.length w self with
  | none => none
  | some w1 => some (if !kicked then _setQueueTimer w1 self else w1)

/-- The method `_kickQueue()`. -/
def _kickQueue (w : World) (self : Nat) : Option World :=
  _processQueue w self true

/-- What `_requestCompleted` emits after its bookkeeping, in order. -/
def completionEffects (self : Nat) (err : Option String) (request : Nat) (req : Request)
    (response : Response) : List Effect :=
  if !req.is_cancelled && decide (response.status_code = 401) then
    [Effect.trigger self EventName.authentication_required request response]
  else
    match req.done with
    | some fn =>
      if !req.is_cancelled then
        (if !req.quiet && (err.isSome ||
            (decide (response.status_code ≠ 200) && decide (response.status_code ≠ 201))) then
          [Effect.trigger self EventName.request_failed request response]
        else []) ++
        (match req.context with
         | some context => [Effect.done_apply fn context err request response]
         | none => [Effect.done_call fn err request response])
      else []
    | none => []

/-- The method `_requestCompleted(err, request, response)`, run with `this = self`. -/
def _requestCompleted (w : World) (self : Nat) (err : Option String) (request : Nat)
    (response : Response) : World :=
  let s := w.scopes self
  let count := s._requests_in_progress_count - 1
  let in_progress :=
    match objGet s._requests_in_progress (w.heap request).id with
    | some _ => objDelete s._requests_in_progress (w.heap request).id
    | none => s._requests_in_progress
  { w with
    scopes := Function.update w.scopes self
      { s with _requests_in_progress := in_progress, _requests_in_progress_count := count }
    effects := w.effects ++ completionEffects self err request (w.heap request) response }

/-- The third argument of the submission methods: nothing, a function (taken as `done`), or an
options object, each of whose fields may be missing. -/
inductive OptionsArg where
  | absent : OptionsArg
  | callback : Nat → OptionsArg
  | object : Option Int → Option Nat → Option Nat → Option Bool → OptionsArg
  deriving DecidableEq, Repr

/-- The expression `options.priority || 1` after `options = options || {}`: a missing priority
and the falsy priority `0` give `1`. -/
def OptionsArg.priority : OptionsArg → Int
  | OptionsArg.object (some p) _ _ _ => if p = 0 then 1 else p
  | _ => 1

/-- The expression `options.context`. -/
def OptionsArg.context : OptionsArg → Option Nat
  | OptionsArg.object _ c _ _ => c
  | _ => none

/-- The expression `options.timeout`. -/
def OptionsArg.timeout : OptionsArg → Option Nat
  | OptionsArg.object _ _ t _ => t
  | _ => none

/-- The expression `options.quiet || false`. -/
def OptionsArg.quiet : OptionsArg → Bool
  | OptionsArg.object _ _ _ (some b) => b
  | _ => false

/-- The value of `done` after `if (_.isFunction(options)) { done = options; options = null; }`. -/
def OptionsArg.done (options : OptionsArg) (done : Option Nat) : Option Nat :=
  match options with
  | OptionsArg.callback f => some f
  | _ => done

/-- The object literal `request` of `_queueRequest`, given the GUID drawn for it. -/
def newRequest (w : World) (self : Nat) (method url : String) (data : Option String)
    (options : OptionsArg) (done : Option Nat) (guid : Nat) : Request :=
  { id := guid
    url := url
    method := method
    data := data
    priority := options.priority
    done := options.done done
    context := options.context
    timeout := options.timeout
    restque_id := (w.scopes self)._id
    is_cancelled := false
    quiet := options.quiet
    handle := none }

/-- A new object in the store; its reference is the old value of `allocated`. -/
def World.alloc (w : World) (request : Request) : World :=
  { w with heap := Function.update w.heap w.allocated request, allocated := w.allocated + 1 }

/-- The call `this._queue.add(request)`. -/
def queueAdd (w : World) (request : Nat) : World :=
  { w with _queue := priority_queue.add w.comparer w._queue request }

/-- The method `_queueRequest(method, url, data, options, done)`, given the GUID drawn for the
request: the state afterwards and the returned `request.id`. -/
def _queueRequest (w : World) (self : Nat) (method url : String) (data : Option String)
    (options : OptionsArg) (done : Option Nat) (guid : Nat) : Option (World × Nat) :=
  let request := newRequest w self method url data options done guid
  let w1 := queueAdd (w.alloc request) w.allocated
  match _kickQueue w1 self with
  | none => none
  | some w2 => some (w2, request.id)

/-- The method `taggedRestque()`, given the GUID drawn for the new instance: the state
afterwards and the new instance. -/
def taggedRestque (w : World) (_self : Nat) (guid : Nat) : World × Nat :=
  ({ w with
     scopes := Function.update w.scopes w.instances (restque.new guid)
     instances := w.instances + 1 }, w.instances)

/-- The method `_cancelRequest(request)`. -/
def _cancelRequest (heap : Nat → Request) (request : Nat) : Nat → Request :=
  Function.update heap request
    { heap request with
      is_cancelled := true
      handle := (heap request).handle.map (fun h => { aborted := h.aborted + 1 }) }

/-- The first loop of `cancel`, `for (key in this._requests_in_progress)`, over the keys still
to visit: the store, the map and the count afterwards. A key deleted meanwhile is skipped. -/
def cancelInProgress (id : Nat) :
    List Nat → (Nat → Request) × List (Nat × Nat) × Int → (Nat → Request) × List (Nat × Nat) × Int
  | [], st => st
  | key :: keys, (heap, in_progress, count) =>
    match objGet in_progress key with
    | none => cancelInProgress id keys (heap, in_progress, count)
    | some request =>
      if (heap request).restque_id = id then
        cancelInProgress id keys (_cancelRequest heap request, objDelete in_progress key, count - 1)
      else cancelInProgress id keys (heap, in_progress, count)

/-- The outcome of the second loop of `cancel`. -/
inductive Scan where
  | found : Nat → Nat → Scan
  | absent : Scan
  | typeError : Scan
  deriving DecidableEq, Repr

/-- The second loop of `cancel`, `for (i = 0; i < this._queue.count(); i++)`, from index `i`
with `n = count - i` turns left: the first index whose request has this instance's id, with
that request. Reading `restque_id` of `null` or `undefined` throws. -/
def cancelScan (heap : Nat → Request) (id : Nat) (q : List Nat) : Nat → Nat → Scan
  | 0, _ => Scan.absent
  | n + 1, i =>
    match priority_queue.peekAtIndex q (i : Int) with
    | priority_queue.Peeked.object request =>
      if (heap request).restque_id = id then Scan.found i request
      else cancelScan heap id q n (i + 1)
    | _ => Scan.typeError

/-- The first loop of `cancel`, run on the state. -/
def cancelOwnInProgress (w : World) (self : Nat) : World :=
  let s := w.scopes self
  let st := cancelInProgress s._id (s._requests_in_progress.map Prod.fst)
    (w.heap, s._requests_in_progress, s._requests_in_progress_count)
  { w with
    heap := st.1
    scopes := Function.update w.scopes self
      { s with _requests_in_progress := st.2.1, _requests_in_progress_count := st.2.2 } }

/-- The two calls of the second loop of `cancel` on a match at index `i`:
`this._cancelRequest(request); this._queue.removeAtIndex(i);`. -/
def cancelQueued (w : World) (i : Nat) (request : Nat) : World :=
  let w1 := { w with heap := _cancelRequest w.heap request }
  { w1 with _queue := priority_queue.removeAtIndex w1.comparer w1._queue (i : Int) }

/-- The method `cancel()`, with fuel for its recursion. `none`: the fuel ran out, or the scan
threw. -/
def cancelFuel : Nat → World → Nat → Option World
  | 0, _, _ => none
  | fuel + 1, w, self =>
    let w1 := cancelOwnInProgress w self
    match cancelScan w1.heap (w1.scopes self)._id w1._queue (priority_queue.count w1._queue) 0 with
    | Scan.typeError => none
    | Scan.absent => some w1
    | Scan.found i request => cancelFuel fuel (cancelQueued w1 i request) self

/-- The method `cancel()`. A recursive call follows the removal of one object from the queue, so
its length plus one is fuel enough. -/
def cancel (w : World) (self : Nat) : Option World :=
  cancelFuel (w._queue.length + 1) w self

/-- The method `get(url, options, done)`: the state afterwards and the returned value. The
body is the statement `this._queueRequest('GET', url, null, options, done);`, without
`return`: the value of the call is dropped and the method returns `undefined`, here `none`. -/
def get (w : World) (self : Nat) (url : String) (options : OptionsArg) (done : Option Nat)
    (guid : Nat) : Option (World × Option Nat) :=
  (_queueRequest w self "GET" url none options done guid).map (fun r => (r.1, none))

/-- The method `post(url, data, options, done)`: the state afterwards and the returned value,
`undefined`. -/
def post (w : World) (self : Nat) (url : String) (data : Option String) (options : OptionsArg)
    (done : Option Nat) (guid : Nat) : Option (World × Option Nat) :=
  (_queueRequest w self "POST" url data options done guid).map (fun r => (r.1, none))

/-- The method `put(url, data, options, done)`: the state afterwards and the returned value,
`undefined`. -/
def put (w : World) (self : Nat) (url : String) (data : Option String) (options : OptionsArg)
    (done : Option Nat) (guid : Nat) : Option (World × Option Nat) :=
  (_queueRequest w self "PUT" url data options done guid).map (fun r => (r.1, none))

/-- The method `delete_(url, options, done)`: the state afterwards and the returned value,
`undefined`. -/
def delete_ (w : World) (self : Nat) (url : String) (options : OptionsArg) (done : Option Nat)
    (guid : Nat) : Option (World × Option Nat) :=
  (_queueRequest w self "DELETE" url none options done guid).map (fun r => (r.1, none))

/-- A pending timeout elapses: it is no longer pending when its callback starts. -/
def timerElapsed (w : World) (self : Nat) : World :=
  { w with
    scopes := Function.update w.scopes self
      { w.scopes self with _processQueueTimer := false } }

/-- The transport completes its `k`-th outstanding call: the call is no longer outstanding when
the `complete` callback starts. -/
def ajaxDone (w : World) (k : Nat) : World :=
  { w with ajax := w.ajax.eraseIdx k }

/-- One thing that happens to the program: a method called on an existing instance, a pending
timeout firing, or the transport completing its `k`-th outstanding call. -/
inductive Action where
  | queueRequest : Nat → String → String → Option String → OptionsArg → Option Nat → Nat → Action
  | processQueue : Nat → Bool → Action
  | timerFired : Nat → Action
  | requestCompleted : Nat → Option String → Response → Action
  | cancel : Nat → Action
  | taggedRestque : Nat → Nat → Action
  deriving DecidableEq, Repr

/-- The state after one action; `none` when the action cannot happen in this state (no such
instance, no such outstanding call, no pending timeout). -/
def step (w : World) : Action → Option World
  | Action.queueRequest self method url data options done guid =>
    if self < w.instances then
      (_queueRequest w self method url data options done guid).map Prod.fst
    else none
  | Action.processQueue self kicked =>
    if self < w.instances then _processQueue w self kicked else none
  | Action.timerFired self =>
    if self < w.instances ∧ (w.scopes self)._processQueueTimer = true then
      _processQueue (timerElapsed w self) self false
    else none
  | Action.requestCompleted k err response =>
    match w.ajax[k]? with
    | some (self, request) =>
      some (_requestCompleted (ajaxDone w k) self err request response)
    | none => none
  | Action.cancel self =>
    if self < w.instances then cancel w self else none
  | Action.taggedRestque self guid =>
    if self < w.instances then some (taggedRestque w self guid).1 else none

/-- The state after a sequence of actions, first action first. -/
def run : World → List Action → Option World
  | w, [] => some w
  | w, a :: rest =>
    match step w a with
    | none => none
    | some w1 => run w1 rest

/-- A submission through `_queueRequest` on instance `self` with priority `p` and GUID `g`. -/
def submit (self : Nat) (p : Int) (g : Nat) : Action :=
  Action.queueRequest self "GET" "/things" none (OptionsArg.object (some p) none none none)
    (some 7) g

/-- The state after a sequence of actions from the initial state whose instance has GUID 100
(the initial state itself if some action cannot happen). -/
def after (acts : List Action) : World :=
  (run (World.init 100) acts).getD (World.init 100)

/-- The requests held in an instance's `_requests_in_progress`, in insertion order. -/
def inFlight (w : World) (self : Nat) : List Nat :=
  (w.scopes self)._requests_in_progress.map Prod.snd

/-- The request an effect is about. -/
def Effect.request : Effect → Nat
  | Effect.trigger _ _ request _ => request
  | Effect.done_apply _ _ _ request _ => request
  | Effect.done_call _ _ request _ => request

/-- A trace with two instances on the shared queue: instance 1 (GUID 200) is made from instance
0 (GUID 100); both submit past their ceilings, so that requests of both are left in the queue
and in flight. -/
def sharedTrace : List Action :=
  [Action.taggedRestque 0 200, submit 0 1 1, submit 0 1 2, submit 0 1 3, submit 0 2 4,
    submit 1 1 5, submit 1 1 6, submit 1 1 7, submit 0 1 8]

/-- The action can happen in this state: its instance exists, the timeout is pending, the call
is outstanding. -/
def Action.enabled (w : World) : Action → Prop
  | Action.queueRequest self _ _ _ _ _ _ => self < w.instances
  | Action.processQueue self _ => self < w.instances
  | Action.timerFired self => self < w.instances ∧ (w.scopes self)._processQueueTimer = true
  | Action.requestCompleted k _ _ => k < w.ajax.length
  | Action.cancel self => self < w.instances
  | Action.taggedRestque self _ => self < w.instances

/-- A property of states that every elementary state change of the program keeps. -/
structure Preserved (P : World → Prop) : Prop where
  enqueue : ∀ (w : World) (self : Nat) (method url : String) (data : Option String)
    (options : OptionsArg) (done : Option Nat) (guid : Nat), P w →
    P (queueAdd (w.alloc (newRequest w self method url data options done guid)) w.allocated)
  turn : ∀ (w : World) (self : Nat) (w1 : World), P w → _shouldProcessQueue w self = true →
    processTurn w self = some w1 → P w1
  setTimer : ∀ (w : World) (self : Nat), P w → P (_setQueueTimer w self)
  elapsed : ∀ (w : World) (self : Nat), P w → P (timerElapsed w self)
  completed : ∀ (w : World) (k self request : Nat) (err : Option String) (response : Response),
    P w → w.ajax[k]? = some (self, request) →
    P (_requestCompleted (ajaxDone w k) self err request response)
  cancelOwn : ∀ (w : World) (self : Nat), P w → P (cancelOwnInProgress w self)
  cancelOne : ∀ (w : World) (self i request : Nat), P w →
    cancelScan w.heap (w.scopes self)._id w._queue (priority_queue.count w._queue) 0
      = Scan.found i request →
    P (cancelQueued w i request)
  tagged : ∀ (w : World) (self guid : Nat), P w → P (taggedRestque w self guid).1

/-- Two versions of a request object that differ at most in what `_cancelRequest` writes: the
flag `is_cancelled`, which is only ever set, and the abort count of a handle that exists. -/
def Request.UpToCancel (old new : Request) : Prop :=
  new = { old with is_cancelled := new.is_cancelled, handle := new.handle } ∧
  (old.is_cancelled = true → new.is_cancelled = true) ∧
  (new.handle = none ↔ old.handle = none)

/-- The request belongs to the scope with this `_id`. -/
def ownedBy (heap : Nat → Request) (id : Nat) (r : Nat) : Bool :=
  decide ((heap r).restque_id = id)

/-- What `cancel()` on instance `this` makes of a state `w`. -/
structure CancelPost (w : World) (this : Nat) (w1 : World) : Prop where
  heap_stable : ∀ r, (w.heap r).UpToCancel (w1.heap r)
  heap_frame : ∀ r, (w.heap r).restque_id ≠ (w.scopes this)._id → w1.heap r = w.heap r
  queue : w1._queue.Perm (w._queue.filter (fun r => !ownedBy w.heap (w.scopes this)._id r))
  queued_cancelled : ∀ r ∈ w._queue, (w.heap r).restque_id = (w.scopes this)._id →
    (w1.heap r).is_cancelled = true
  others : ∀ i, i ≠ this → w1.scopes i = w.scopes i
  own : (w1.scopes this)._requests_in_progress
    = (w.scopes this)._requests_in_progress.filter
        (fun kv => !ownedBy w.heap (w.scopes this)._id kv.2)
  own_id : (w1.scopes this)._id = (w.scopes this)._id
  allocated : w1.allocated = w.allocated
  instances : w1.instances = w.instances
  ajax : w1.ajax = w.ajax
  effects : w1.effects = w.effects

/-- Where a request object can be, by whether it was ever handed to the transport: an object in
the queue has no handle and occurs there once; an object of an outstanding transport call, of
a `_requests_in_progress` map or of an emitted effect has one. All of them are allocated, and
no map has a key twice. -/
structure Good (w : World) : Prop where
  queued : ∀ r ∈ w._queue, r < w.allocated ∧ (w.heap r).handle = none
  queue_nodup : w._queue.Nodup
  outstanding : ∀ p ∈ w.ajax, p.2 < w.allocated ∧ (w.heap p.2).handle ≠ none
  in_progress : ∀ i, ∀ kv ∈ (w.scopes i)._requests_in_progress,
    kv.2 < w.allocated ∧ (w.heap kv.2).handle ≠ none
  reported : ∀ e ∈ w.effects, e.request < w.allocated ∧ (w.heap e.request).handle ≠ none
  keys : ∀ i, ((w.scopes i)._requests_in_progress.map Prod.fst).Nodup

/-- The request object `r` exists, is not in the queue and was never handed to the transport. -/
def Never (r : Nat) (w : World) : Prop :=
  r < w.allocated ∧ r ∉ w._queue ∧ (w.heap r).handle = none

/-- No instance counts more requests in progress than its ceiling. -/
def Bounded (w : World) : Prop :=
  ∀ i, (w.scopes i)._requests_in_progress_count ≤ (w.scopes i)._max_requests

/-- The comparer as the queue sees it when its elements are of type `α` and `look` reads the
request behind an element (the identity for request values, the store for references). -/
def comparerOn {α : Type} (look : α → Request) (a b : α) : Int :=
  _requestPriorityComparer (look a) (look b)

/-- The array is in non-increasing priority order. -/
def Ordered {α : Type} (look : α → Request) (q : List α) : Prop :=
  q.Pairwise (fun a b => (look b).priority ≤ (look a).priority)

/-- One call on a `priority_queue`. -/
inductive QueueCall (α : Type) where
  | add : α → QueueCall α
  | next : QueueCall α
  | remove : α → QueueCall α
  | removeAtIndex : Int → QueueCall α

/-- The array after one call. -/
def runCall {α : Type} [DecidableEq α] (comparer : α → α → Int) (q : List α) :
    QueueCall α → List α
  | QueueCall.add x => priority_queue.add comparer q x
  | QueueCall.next => (priority_queue.next comparer q).2
  | QueueCall.remove x => priority_queue.remove comparer q x
  | QueueCall.removeAtIndex i => priority_queue.removeAtIndex comparer q i

/-- The array after a sequence of calls, first call first. -/
def runCalls {α : Type} [DecidableEq α] (comparer : α → α → Int) :
    List α → List (QueueCall α) → List α
  | q, [] => q
  | q, c :: cs => runCalls comparer (runCall comparer q c) cs

/-- Adds the objects of a list one after the other, first object first. -/
def addAll {α : Type} (comparer : α → α → Int) : List α → List α → List α
  | q, [] => q
  | q, x :: xs => addAll comparer (priority_queue.add comparer q x) xs

/-- Calls `next()` `n` times: the returned values in order, and the array afterwards. -/
def nextTimes {α : Type} (comparer : α → α → Int) : Nat → List α → List (Option α) × List α
  | 0, q => ([], q)
  | n + 1, q =>
    let r := priority_queue.next comparer q
    let rest := nextTimes comparer n r.2
    (r.1 :: rest.1, rest.2)

/-- The method `cancel()` with a count of its calls: the state it leaves and how many times the
method ran, the first call included. The fuel and the meaning of `none` are those of
`cancelFuel`. -/
def cancelCalls : Nat → World → Nat → Option (World × Nat)
  | 0, _, _ => none
  | fuel + 1, w, self =>
    let w1 := cancelOwnInProgress w self
    match cancelScan w1.heap (w1.scopes self)._id w1._queue (priority_queue.count w1._queue) 0 with
    | Scan.typeError => none
    | Scan.absent => some (w1, 1)
    | Scan.found i request =>
      match cancelCalls fuel (cancelQueued w1 i request) self with
      | none => none
      | some r => some (r.1, r.2 + 1)

/-- What the outside of the module does to it: a public method called on an instance, with the
GUID drawn where one is drawn, or the transport completing its `k`-th outstanding call. -/
inductive PublicCall where
  | get : Nat → String → OptionsArg → Option Nat → Nat → PublicCall
  | post : Nat → String → Option String → OptionsArg → Option Nat → Nat → PublicCall
  | put : Nat → String → Option String → OptionsArg → Option Nat → Nat → PublicCall
  | delete_ : Nat → String → OptionsArg → Option Nat → Nat → PublicCall
  | cancel : Nat → PublicCall
  | taggedRestque : Nat → Nat → PublicCall
  | completed : Nat → Option String → Response → PublicCall
  deriving DecidableEq, Repr

/-- The call is one of the four submission methods. -/
def PublicCall.isSubmission : PublicCall → Bool
  | PublicCall.get _ _ _ _ _ => true
  | PublicCall.post _ _ _ _ _ _ => true
  | PublicCall.put _ _ _ _ _ _ => true
  | PublicCall.delete_ _ _ _ _ _ => true
  | _ => false

/-- The state after one public call or completion; `none` when there is no such instance or no
such outstanding call. -/
def publicStep (w : World) : PublicCall → Option World
  | PublicCall.get self url options done guid =>
    if self < w.instances then (get w self url options done guid).map Prod.fst else none
  | PublicCall.post self url data options done guid =>
    if self < w.instances then (post w self url data options done guid).map Prod.fst else none
  | PublicCall.put self url data options done guid =>
    if self < w.instances then (put w self url data options done guid).map Prod.fst else none
  | PublicCall.delete_ self url options done guid =>
    if self < w.instances then (delete_ w self url options done guid).map Prod.fst else none
  | PublicCall.cancel self =>
    if self < w.instances then cancel w self else none
  | PublicCall.taggedRestque self guid =>
    if self < w.instances then some (taggedRestque w self guid).1 else none
  | PublicCall.completed k err response =>
    match w.ajax[k]? with
    | some (self, request) =>
      some (_requestCompleted (ajaxDone w k) self err request response)
    | none => none

/-- The state after a sequence of public calls and completions, first one first. -/
def publicRun : World → List PublicCall → Option World
  | w, [] => some w
  | w, c :: rest =>
    match publicStep w c with
    | none => none
    | some w1 => publicRun w1 rest

/-- The action that a public call or completion is. -/
def PublicCall.toAction : PublicCall → Action
  | PublicCall.get self url options done guid =>
    Action.queueRequest self "GET" url none options done guid
  | PublicCall.post self url data options done guid =>
    Action.queueRequest self "POST" url data options done guid
  | PublicCall.put self url data options done guid =>
    Action.queueRequest self "PUT" url data options done guid
  | PublicCall.delete_ self url options done guid =>
    Action.queueRequest self "DELETE" url none options done guid
  | PublicCall.cancel self => Action.cancel self
  | PublicCall.taggedRestque self guid => Action.taggedRestque self guid
  | PublicCall.completed k err response => Action.requestCompleted k err response

/-- No instance has a timeout pending. -/
def Unarmed (w : World) : Prop :=
  ∀ i, (w.scopes i)._processQueueTimer = false

/-- A trace of public calls: a second instance is made, the first submits three requests (the
third stays queued at the ceiling), one completes, the second instance submits, the first
cancels. -/
def publicTrace : List PublicCall :=
  [PublicCall.taggedRestque 0 200,
    PublicCall.get 0 "/a" (OptionsArg.object (some 1) none none none) (some 7) 1,
    PublicCall.post 0 "/b" (some "x") (OptionsArg.callback 8) none 2,
    PublicCall.put 0 "/c" (some "y") OptionsArg.absent (some 9) 3,
    PublicCall.completed 0 none { status_code := 200, body := "" },
    PublicCall.delete_ 1 "/d" OptionsArg.absent none 4,
    PublicCall.cancel 0]

/-- The state after a sequence of public calls from the initial state whose instance has GUID
100 (the initial state itself if some call cannot happen). -/
def afterPublic (calls : List PublicCall) : World :=
  (publicRun (World.init 100) calls).getD (World.init 100)

/-- The queue is in non-increasing priority order and holds no cancelled request. -/
def QueueLive (w : World) : Prop :=
  Ordered w.heap w._queue ∧ ∀ r ∈ w._queue, (w.heap r).is_cancelled = false

/-- A trace that leaves a free slot and a non-empty queue: on the first instance, four
submissions (priorities 1, 10, 5, 7; the last two stay queued), then the completion of the
first outstanding call. -/
def slotTrace : List Action :=
  [submit 0 1 1, submit 0 10 2, submit 0 5 3, submit 0 7 4,
    Action.requestCompleted 0 none { status_code := 200, body := "" }]

/-- No request object is in the maps of two instances, nor twice in one map. -/
def Apart (w : World) : Prop :=
  (∀ i j, i ≠ j → ∀ r, r ∈ inFlight w i → r ∉ inFlight w j) ∧ ∀ i, (inFlight w i).Nodup

/-- The effect is a call of the caller's `done` callback. -/
def Effect.isDone : Effect → Bool
  | Effect.done_apply _ _ _ _ _ => true
  | Effect.done_call _ _ _ _ => true
  | Effect.trigger _ _ _ _ => false

/-- The effect is `trigger('request_failed', ...)`. -/
def Effect.isFailed : Effect → Bool
  | Effect.trigger _ EventName.request_failed _ _ => true
  | _ => false

/-- The call of `done` that `_requestCompleted` makes for a request whose `done` is the function
`fn`: through `apply` with the context when there is one, directly otherwise. -/
def doneCall (fn : Nat) (context : Option Nat) (err : Option String) (request : Nat)
    (response : Response) : Effect :=
  match context with
  | some c => Effect.done_apply fn c err request response
  | none => Effect.done_call fn err request response

/-- A request object with priority 1 and the given id, for queues of equal-priority records. -/
def tie (i : Nat) : Request :=
  { Request.blank with id := i, priority := 1 }

/-! ## The priority queue: what the two bubbling loops compute -/

namespace priority_queue
variable {α : Type}

theorem getElem?_mid (pre : List α) (a : α) (suf : List α) :
    (pre ++ a :: suf)[pre.length]? = some a := by
  rw [List.getElem?_append_right (Nat.le_refl _)]
  simp

theorem getElem?_mid_succ (pre : List α) (a b : α) (suf : List α) :
    (pre ++ a :: b :: suf)[pre.length + 1]? = some b := by
  rw [List.getElem?_append_right (by omega)]
  simp

theorem set_mid (pre : List α) (a b : α) (suf : List α) :
    (pre ++ a :: suf).set pre.length b = pre ++ b :: suf := by
  simp

theorem set_mid_succ (pre : List α) (a b c : α) (suf : List α) :
    (pre ++ a :: b :: suf).set (pre.length + 1) c = pre ++ a :: c :: suf := by
  rw [List.set_append_right _ _ (by omega)]
  simp

theorem bubbleUp_spec (comparer : α → α → Int) (x : α) (ps suf : List α) :
    _bubbleUpFrom comparer (ps.reverse ++ x :: suf) ps.length
      = (insRev comparer x ps).reverse ++ suf := by
  induction ps generalizing suf with
  | nil => simp [_bubbleUpFrom, insRev]
  | cons p ps ih =>
    have e : (p :: ps).reverse ++ x :: suf = ps.reverse ++ p :: x :: suf := by simp
    have hl : (p :: ps).length = ps.reverse.length + 1 := by simp
    rw [e, hl, _bubbleUpFrom, getElem?_mid, getElem?_mid_succ]
    simp only [_compareObjects, comparison_result.same, insRev]
    split
    · rw [set_mid_succ, set_mid, List.length_reverse, ih]
      simp
    · simp

theorem bubbleDown_spec (comparer : α → α → Int) (x : α) (pre suf : List α) :
    bubbleDownLoop comparer suf.length (pre ++ x :: suf) pre.length
      = pre ++ sink comparer x suf := by
  induction suf generalizing pre with
  | nil => simp [bubbleDownLoop, sink]
  | cons c rest ih =>
    rw [List.length_cons, bubbleDownLoop, getElem?_mid_succ, getElem?_mid]
    simp only [_compareObjects, comparison_result.same, sink]
    split
    · rw [set_mid, set_mid_succ]
      have := ih (pre ++ [c])
      simp only [List.length_append, List.length_singleton, List.append_assoc,
        List.singleton_append] at this
      rw [this]
    · rfl

theorem add_eq (comparer : α → α → Int) (q : List α) (x : α) :
    add comparer q x = (insRev comparer x q.reverse).reverse := by
  have := bubbleUp_spec comparer x q.reverse []
  simp only [List.reverse_reverse, List.length_reverse, List.append_nil] at this
  simp only [add, List.length_append, List.length_singleton, Nat.add_sub_cancel]
  exact this

theorem insRev_perm (comparer : α → α → Int) (x : α) (ps : List α) :
    (insRev comparer x ps).Perm (x :: ps) := by
  induction ps with
  | nil => simp [insRev]
  | cons p ps ih =>
    simp only [insRev]
    split
    · exact (List.Perm.cons p ih).trans (List.Perm.swap x p ps)
    · exact List.Perm.refl _

theorem sink_perm (comparer : α → α → Int) (x : α) (l : List α) :
    (sink comparer x l).Perm (x :: l) := by
  induction l with
  | nil => simp [sink]
  | cons c rest ih =>
    simp only [sink]
    split
    · exact (List.Perm.cons c ih).trans (List.Perm.swap x c rest)
    · exact List.Perm.refl _

theorem add_perm (comparer : α → α → Int) (q : List α) (x : α) :
    (add comparer q x).Perm (x :: q) := by
  rw [add_eq]
  refine (List.reverse_perm _).trans ((insRev_perm comparer x q.reverse).trans ?_)
  exact List.Perm.cons x (List.reverse_perm q)

theorem removeAtIndex_mid (comparer : α → α → Int) (pre : List α) (a : α) (init : List α)
    (l : α) :
    removeAtIndex comparer (pre ++ a :: (init ++ [l])) (pre.length : Int)
      = pre ++ sink comparer l init := by
  have hlen : (pre ++ a :: (init ++ [l])).length = pre.length + init.length + 2 := by
    simp; omega
  have hlast : (pre ++ a :: (init ++ [l]))[pre.length + init.length + 2 - 1]? = some l := by
    have e : pre ++ a :: (init ++ [l]) = (pre ++ a :: init) ++ [l] := by simp
    have hl2 : (pre ++ a :: init).length = pre.length + init.length + 2 - 1 := by
      simp; omega
    rw [e, ← hl2, List.getElem?_append_right (Nat.le_refl _)]
    simp
  have hdrop : (pre ++ l :: (init ++ [l])).dropLast = pre ++ l :: init := by
    have e : pre ++ l :: (init ++ [l]) = (pre ++ l :: init) ++ [l] := by simp
    rw [e, List.dropLast_concat]
  unfold removeAtIndex
  rw [if_pos (by rw [hlen]; constructor <;> omega)]
  simp only [Int.toNat_ofNat]
  rw [if_pos (by rw [hlen]; omega), hlen, hlast]
  simp only [set_mid, hdrop, _bubbleDownFrom]
  have hn : (pre ++ l :: init).length - 1 - pre.length = init.length := by simp
  rw [hn, bubbleDown_spec]

theorem removeAtIndex_last (comparer : α → α → Int) (pre : List α) (a : α) :
    removeAtIndex comparer (pre ++ [a]) (pre.length : Int) = pre := by
  unfold removeAtIndex
  rw [if_pos (by simp)]
  simp only [Int.toNat_ofNat]
  rw [if_neg (by simp)]
  simp [_bubbleDownFrom, bubbleDownLoop]

theorem removeAtIndex_length (comparer : α → α → Int) (q : List α) :
    removeAtIndex comparer q (q.length : Int) = q.dropLast := by
  unfold removeAtIndex
  rw [if_pos (by simp)]
  simp only [Int.toNat_ofNat]
  rw [if_neg (by omega)]
  have : q.dropLast.length - 1 - q.length = 0 := by simp; omega
  rw [_bubbleDownFrom, this, bubbleDownLoop]

theorem removeAtIndex_out (comparer : α → α → Int) (q : List α) (index : Int)
    (h : index < 0 ∨ (q.length : Int) < index) :
    removeAtIndex comparer q index = q := by
  unfold removeAtIndex
  rw [if_neg (by omega)]

/-- Every array splits at a valid index. -/
theorem split_at (q : List α) (i : Nat) (h : i < q.length) :
    ∃ pre a suf, q = pre ++ a :: suf ∧ pre.length = i :=
  ⟨q.take i, q[i], q.drop (i + 1), by simp, by simp; omega⟩

theorem removeAtIndex_perm (comparer : α → α → Int) (pre : List α) (a : α) (suf : List α) :
    (removeAtIndex comparer (pre ++ a :: suf) (pre.length : Int)).Perm (pre ++ suf) := by
  rcases List.eq_nil_or_concat suf with h | ⟨init, l, h⟩
  · subst h
    rw [removeAtIndex_last]
    simp
  · subst h
    rw [List.concat_eq_append, removeAtIndex_mid]
    refine List.Perm.append_left pre ?_
    exact (sink_perm comparer l init).trans (List.perm_append_singleton l init).symm

end priority_queue

/-! ## The priority queue under `_requestPriorityComparer` -/

open priority_queue

variable {α : Type}

theorem comparerOn_neg (look : α → Request) (a b : α) :
    comparerOn look a b < 0 ↔ (look a).priority < (look b).priority := by
  unfold comparerOn _requestPriorityComparer
  split
  · simp; omega
  · split
    · simp; omega
    · simp; omega

theorem comparerOn_pos (look : α → Request) (a b : α) :
    comparerOn look a b > 0 ↔ (look a).priority > (look b).priority := by
  unfold comparerOn _requestPriorityComparer
  split
  · simp; omega
  · split
    · simp; omega
    · simp; omega

theorem insRev_sorted (look : α → Request) (x : α) (ps : List α)
    (h : ps.Pairwise (fun a b => (look a).priority ≤ (look b).priority)) :
    (insRev (comparerOn look) x ps).Pairwise
      (fun a b => (look a).priority ≤ (look b).priority) := by
  induction ps with
  | nil => simp [insRev]
  | cons p ps ih =>
    rw [List.pairwise_cons] at h
    simp only [insRev]
    split
    · rename_i hlt
      rw [comparerOn_neg] at hlt
      rw [List.pairwise_cons]
      refine ⟨?_, ih h.2⟩
      intro y hy
      rcases List.mem_cons.mp ((insRev_perm (comparerOn look) x ps).mem_iff.mp hy) with e | e
      · subst e; omega
      · exact h.1 y e
    · rename_i hlt
      rw [comparerOn_neg] at hlt
      rw [List.pairwise_cons, List.pairwise_cons]
      refine ⟨?_, h.1, h.2⟩
      intro y hy
      rcases List.mem_cons.mp hy with e | e
      · subst e; omega
      · have := h.1 y e
        omega

theorem add_ordered (look : α → Request) (q : List α) (x : α) (h : Ordered look q) :
    Ordered look (add (comparerOn look) q x) := by
  rw [add_eq]
  unfold Ordered at *
  rw [List.pairwise_reverse]
  apply insRev_sorted
  rw [List.pairwise_reverse]
  exact h

theorem sink_ordered (look : α → Request) (x : α) (l : List α) (h : Ordered look l)
    (hx : ∀ y ∈ l, (look x).priority ≤ (look y).priority) :
    Ordered look (sink (comparerOn look) x l) := by
  unfold Ordered at *
  induction l with
  | nil => simp [sink]
  | cons c rest ih =>
    rw [List.pairwise_cons] at h
    simp only [sink]
    split
    · rw [List.pairwise_cons]
      refine ⟨?_, ih h.2 (fun y hy => hx y (List.mem_cons_of_mem _ hy))⟩
      intro y hy
      rcases List.mem_cons.mp ((sink_perm (comparerOn look) x rest).mem_iff.mp hy) with e | e
      · subst e; exact hx c (List.mem_cons_self _ _)
      · exact h.1 y e
    · rename_i hgt
      rw [comparerOn_pos] at hgt
      have hc := hx c (List.mem_cons_self _ _)
      rw [List.pairwise_cons, List.pairwise_cons]
      refine ⟨?_, h.1, h.2⟩
      intro y hy
      rcases List.mem_cons.mp hy with e | e
      · subst e; omega
      · have := h.1 y e
        omega

theorem removeAtIndex_ordered (look : α → Request) (q : List α) (index : Int)
    (h : Ordered look q) : Ordered look (removeAtIndex (comparerOn look) q index) := by
  by_cases hout : index < 0 ∨ (q.length : Int) < index
  · rw [removeAtIndex_out _ _ _ hout]; exact h
  · by_cases hlen : index = (q.length : Int)
    · subst hlen
      rw [removeAtIndex_length]
      exact List.Pairwise.sublist (List.dropLast_sublist q) h
    · have hi : index.toNat < q.length := by omega
      obtain ⟨pre, a, suf, hq, hpre⟩ := split_at q index.toNat hi
      have hidx : index = (pre.length : Int) := by omega
      subst hq
      rw [hidx]
      rcases List.eq_nil_or_concat suf with hs | ⟨init, l, hs⟩
      · subst hs
        rw [removeAtIndex_last]
        exact List.Pairwise.sublist (List.sublist_append_left pre [a]) h
      · subst hs
        rw [List.concat_eq_append, removeAtIndex_mid]
        unfold Ordered at *
        rw [List.concat_eq_append, List.pairwise_append] at h
        obtain ⟨hp, hs, hps⟩ := h
        rw [List.pairwise_cons, List.pairwise_append] at hs
        obtain ⟨-, hinit, -, hil⟩ := hs
        rw [List.pairwise_append]
        refine ⟨hp, sink_ordered look l init hinit ?_, ?_⟩
        · intro y hy
          exact hil y hy l (List.mem_singleton_self l)
        · intro x hx y hy
          apply hps x hx y
          rcases List.mem_cons.mp ((sink_perm (comparerOn look) l init).mem_iff.mp hy) with e | e
          · subst e; simp
          · simp [e]

theorem remove_ordered [DecidableEq α] (look : α → Request) (q : List α) (x : α)
    (h : Ordered look q) : Ordered look (remove (comparerOn look) q x) := by
  unfold remove
  split
  · exact removeAtIndex_ordered look q _ h
  · exact h

theorem next_ordered (look : α → Request) (q : List α) (h : Ordered look q) :
    Ordered look (next (comparerOn look) q).2 := by
  unfold next
  split
  · exact h
  · exact removeAtIndex_ordered look q 0 h

theorem runCalls_ordered [DecidableEq α] (look : α → Request) (calls : List (QueueCall α))
    (q : List α) (h : Ordered look q) :
    Ordered look (runCalls (comparerOn look) q calls) := by
  induction calls generalizing q with
  | nil => exact h
  | cons c cs ih =>
    apply ih
    cases c with
    | add x => exact add_ordered look q x h
    | next => exact next_ordered look q h
    | remove x => exact remove_ordered look q x h
    | removeAtIndex i => exact removeAtIndex_ordered look q i h

theorem peek_ordered (look : α → Request) (q : List α) (h : Ordered look q) (hq : q ≠ []) :
    ∃ x, peek q = some x ∧ x ∈ q ∧ ∀ y ∈ q, (look y).priority ≤ (look x).priority := by
  cases q with
  | nil => exact absurd rfl hq
  | cons a rest =>
    refine ⟨a, by simp [peek], List.mem_cons_self _ _, ?_⟩
    unfold Ordered at h
    rw [List.pairwise_cons] at h
    intro y hy
    rcases List.mem_cons.mp hy with e | e
    · subst e; exact Int.le_refl _
    · exact h.1 y e

/-- C1: from an empty queue under `_requestPriorityComparer`, after every call of any sequence
of `add`, `next`, `remove` and `removeAtIndex` calls (the first `n` calls of `calls`, for every
`n`) the array is in non-increasing priority order; hence, when it is not empty, `peek()`
returns an object of the array whose priority is at least that of every object present. -/
theorem C1_queue_stays_ordered [DecidableEq α] (look : α → Request)
    (calls : List (QueueCall α)) (n : Nat) :
    Ordered look (runCalls (comparerOn look) [] (calls.take n)) ∧
    (runCalls (comparerOn look) [] (calls.take n) ≠ [] →
      ∃ x, peek (runCalls (comparerOn look) [] (calls.take n)) = some x ∧
        x ∈ runCalls (comparerOn look) [] (calls.take n) ∧
        ∀ y ∈ runCalls (comparerOn look) [] (calls.take n),
          (look y).priority ≤ (look x).priority) := by
  have h := runCalls_ordered look (calls.take n) [] List.Pairwise.nil
  exact ⟨h, fun hq => peek_ordered look _ h hq⟩

theorem addAll_perm (comparer : α → α → Int) (xs q : List α) :
    (addAll comparer q xs).Perm (q ++ xs) := by
  induction xs generalizing q with
  | nil => simp [addAll]
  | cons x xs ih =>
    simp only [addAll]
    refine (ih _).trans ?_
    refine (List.Perm.append_right xs (add_perm comparer q x)).trans ?_
    simpa using (@List.perm_middle _ x q xs).symm

theorem addAll_ordered (look : α → Request) (xs q : List α) (h : Ordered look q) :
    Ordered look (addAll (comparerOn look) q xs) := by
  induction xs generalizing q with
  | nil => exact h
  | cons x xs ih => exact ih _ (add_ordered look q x h)

theorem next_cons (comparer : α → α → Int) (a : α) (rest : List α) :
    (next comparer (a :: rest)).1 = some a ∧
    (next comparer (a :: rest)).2.Perm rest := by
  constructor
  · simp [next, peek]
  · have := removeAtIndex_perm comparer [] a rest
    simpa [next] using this

theorem nextTimes_ordered (look : α → Request) (n : Nat) (q : List α) (hn : q.length = n)
    (h : Ordered look q) :
    ∃ out : List α, (nextTimes (comparerOn look) n q).1 = out.map some ∧ out.Perm q ∧
      Ordered look out ∧ (nextTimes (comparerOn look) n q).2 = [] := by
  induction n generalizing q with
  | zero =>
    have : q = [] := List.length_eq_zero.mp hn
    subst this
    exact ⟨[], rfl, List.Perm.refl _, List.Pairwise.nil, rfl⟩
  | succ n ih =>
    cases q with
    | nil => simp at hn
    | cons a rest =>
      obtain ⟨h1, h2⟩ := next_cons (comparerOn look) a rest
      have hlen : (next (comparerOn look) (a :: rest)).2.length = n := by
        rw [h2.length_eq]; simpa using hn
      obtain ⟨out, ho1, ho2, ho3, ho4⟩ := ih _ hlen (next_ordered look _ h)
      refine ⟨a :: out, ?_, ?_, ?_, ?_⟩
      · simp only [nextTimes, h1, ho1, List.map_cons]
      · exact List.Perm.cons a (ho2.trans h2)
      · unfold Ordered at *
        rw [List.pairwise_cons] at h ⊢
        refine ⟨fun y hy => h.1 y ((ho2.trans h2).mem_iff.mp hy), ho3⟩
      · simp only [nextTimes, ho4]

/-- C2: adding the objects of `xs` to an empty queue and calling `next()` `xs.length` times
returns objects `out`, none of them `null`, that are a permutation of `xs` in non-increasing
priority order; one more `next()` returns `null`. -/
theorem C2_add_then_next_sorts (look : α → Request) (xs : List α) :
    ∃ out : List α,
      (nextTimes (comparerOn look) xs.length (addAll (comparerOn look) [] xs)).1
        = out.map some ∧
      out.Perm xs ∧ Ordered look out ∧
      (next (comparerOn look)
        (nextTimes (comparerOn look) xs.length (addAll (comparerOn look) [] xs)).2).1
        = none := by
  have hp := addAll_perm (comparerOn look) xs []
  have hl : (addAll (comparerOn look) [] xs).length = xs.length := by
    simpa using hp.length_eq
  obtain ⟨out, h1, h2, h3, h4⟩ :=
    nextTimes_ordered look xs.length _ hl (addAll_ordered look xs [] List.Pairwise.nil)
  refine ⟨out, h1, ?_, h3, ?_⟩
  · simpa using h2.trans hp
  · rw [h4]; simp [next]

/-! ## Properties kept by every state change -/

theorem Preserved.loop {P : World → Prop} (hP : Preserved P) (n : Nat) (w : World) (self : Nat)
    (w1 : World) (h0 : P w) (h : processLoop n w self = some w1) : P w1 := by
  induction n generalizing w with
  | zero =>
    simp only [processLoop] at h
    split at h
    · simp at h
    · simp at h; subst h; exact h0
  | succ n ih =>
    simp only [processLoop] at h
    split at h
    · rename_i hs
      split at h
      · simp at h
      · rename_i w2 hw2
        exact ih w2 (hP.turn w self w2 h0 hs hw2) h
    · simp at h; subst h; exact h0

theorem Preserved.processQueue {P : World → Prop} (hP : Preserved P) (w : World) (self : Nat)
    (kicked : Bool) (w1 : World) (h0 : P w) (h : _processQueue w self kicked = some w1) :
    P w1 := by
  unfold _processQueue at h
  split at h
  · simp at h
  · rename_i w2 hw2
    simp at h
    subst h
    have := hP.loop _ w self w2 h0 hw2
    split
    · exact hP.setTimer w2 self this
    · exact this

theorem Preserved.queueRequest {P : World → Prop} (hP : Preserved P) (w : World) (self : Nat)
    (method url : String) (data : Option String) (options : OptionsArg) (done : Option Nat)
    (guid : Nat) (res : World × Nat) (h0 : P w)
    (h : _queueRequest w self method url data options done guid = some res) : P res.1 := by
  unfold _queueRequest at h
  simp only at h
  split at h
  · simp at h
  · rename_i w3 hw3
    simp at h
    subst h
    exact hP.processQueue _ self true w3 (hP.enqueue w self method url data options done guid h0)
      hw3

theorem Preserved.cancelFuel {P : World → Prop} (hP : Preserved P) (n : Nat) (w : World)
    (self : Nat) (w1 : World) (h0 : P w) (h : cancelFuel n w self = some w1) : P w1 := by
  induction n generalizing w with
  | zero => simp [Restque.cancelFuel] at h
  | succ n ih =>
    simp only [Restque.cancelFuel] at h
    have h1 := hP.cancelOwn w self h0
    split at h
    · simp at h
    · simp at h; subst h; exact h1
    · rename_i i request hscan
      exact ih _ (hP.cancelOne _ self i request h1 hscan) h

theorem Preserved.step {P : World → Prop} (hP : Preserved P) (w : World) (a : Action)
    (w1 : World) (h0 : P w) (h : step w a = some w1) : P w1 := by
  cases a with
  | queueRequest self method url data options done guid =>
    simp only [Restque.step] at h
    split at h
    · cases hq : _queueRequest w self method url data options done guid with
      | none => simp [hq] at h
      | some res =>
        simp [hq] at h
        subst h
        exact hP.queueRequest w self method url data options done guid res h0 hq
    · simp at h
  | processQueue self kicked =>
    simp only [Restque.step] at h
    split at h
    · exact hP.processQueue w self kicked w1 h0 h
    · simp at h
  | timerFired self =>
    simp only [Restque.step] at h
    split at h
    · exact hP.processQueue _ self false w1 (hP.elapsed w self h0) h
    · simp at h
  | requestCompleted k err response =>
    simp only [Restque.step] at h
    split at h
    · rename_i self request hk
      simp at h
      subst h
      exact hP.completed w k self request err response h0 hk
    · simp at h
  | cancel self =>
    simp only [Restque.step] at h
    split at h
    · exact hP.cancelFuel _ w self w1 h0 h
    · simp at h
  | taggedRestque self guid =>
    simp only [Restque.step] at h
    split at h
    · simp at h
      subst h
      exact hP.tagged w self guid h0
    · simp at h

theorem Preserved.run {P : World → Prop} (hP : Preserved P) (acts : List Action) (w w1 : World)
    (h0 : P w) (h : run w acts = some w1) : P w1 := by
  induction acts generalizing w with
  | nil => simp [Restque.run] at h; subst h; exact h0
  | cons a rest ih =>
    simp only [Restque.run] at h
    split at h
    · simp at h
    · rename_i w2 hw2
      exact ih w2 (hP.step w a w2 h0 hw2) h

theorem shouldProcessQueue_room (w : World) (self : Nat) (h : _shouldProcessQueue w self = true) :
    (w.scopes self)._requests_in_progress_count < (w.scopes self)._max_requests := by
  unfold _shouldProcessQueue at h
  split at h
  · simp at h
  · split at h
    · simp at h
    · omega

theorem cancelInProgress_count_le (id : Nat) (keys : List Nat)
    (st : (Nat → Request) × List (Nat × Nat) × Int) :
    (cancelInProgress id keys st).2.2 ≤ st.2.2 := by
  induction keys generalizing st with
  | nil => simp [cancelInProgress]
  | cons key keys ih =>
    obtain ⟨heap, in_progress, count⟩ := st
    simp only [cancelInProgress]
    split
    · exact ih _
    · rename_i request _
      split
      · have := ih (_cancelRequest heap request, objDelete in_progress key, count - 1)
        simp only at this ⊢
        omega
      · exact ih _

/-- A state change that leaves the counts and ceilings of all instances but one alone. -/
theorem bounded_update (w : World) (self : Nat) (s : restque) (hb : Bounded w)
    (h : s._requests_in_progress_count ≤ s._max_requests) (i : Nat) :
    (Function.update w.scopes self s i)._requests_in_progress_count
      ≤ (Function.update w.scopes self s i)._max_requests := by
  by_cases hi : i = self
  · subst hi; simpa using h
  · simpa [Function.update_noteq hi] using hb i

theorem bounded_preserved : Preserved Bounded where
  enqueue := fun w self method url data options done guid hb => hb
  turn := by
    intro w self w1 hb hs h
    unfold processTurn at h
    simp only at h
    split at h
    · simp at h
    · simp at h
      subst h
      split
      · intro i
        exact bounded_update _ self _ hb (by
          have := shouldProcessQueue_room w self hs
          simp only
          omega) i
      · exact hb
  setTimer := fun w self hb i =>
    bounded_update w self { w.scopes self with _processQueueTimer := true } hb (hb self) i
  elapsed := fun w self hb i =>
    bounded_update w self { w.scopes self with _processQueueTimer := false } hb (hb self) i
  completed := by
    intro w k self request err response hb _ i
    exact bounded_update _ self _ hb (by have := hb self; simp only [ajaxDone]; omega) i
  cancelOwn := by
    intro w self hb i
    refine bounded_update w self _ hb ?_ i
    have := cancelInProgress_count_le (w.scopes self)._id
      ((w.scopes self)._requests_in_progress.map Prod.fst)
      (w.heap, (w.scopes self)._requests_in_progress,
        (w.scopes self)._requests_in_progress_count)
    have := hb self
    simp only at *
    omega
  cancelOne := fun w self i request hb _ => hb
  tagged := by
    intro w self guid hb i
    exact bounded_update w w.instances _ hb (by simp [restque.new]) i

/-- C3: in every state reached from the initial one by submissions, drains with either value of
`kicked`, timer firings, completions of outstanding transport calls, cancellations and
`taggedRestque` calls, every instance has `_requests_in_progress_count ≤ _max_requests`. -/
theorem C3_in_flight_count_bounded (guid : Nat) (acts : List Action) (w : World)
    (h : run (World.init guid) acts = some w) (i : Nat) :
    (w.scopes i)._requests_in_progress_count ≤ (w.scopes i)._max_requests :=
  bounded_preserved.run acts (World.init guid) w (by intro i; simp [World.init, restque.new]) h i

/-- C3 at the state after three submissions on the first instance. -/
theorem C3_in_flight_count_bounded_witness :
    run (World.init 100) [submit 0 1 1, submit 0 10 2, submit 0 5 3]
      = some (after [submit 0 1 1, submit 0 10 2, submit 0 5 3]) ∧
    ((after [submit 0 1 1, submit 0 10 2, submit 0 5 3]).scopes 0)._requests_in_progress_count
      ≤ ((after [submit 0 1 1, submit 0 10 2, submit 0 5 3]).scopes 0)._max_requests :=
  ⟨rfl, C3_in_flight_count_bounded 100 [submit 0 1 1, submit 0 10 2, submit 0 5 3]
    (after [submit 0 1 1, submit 0 10 2, submit 0 5 3]) rfl 0⟩

/-! ## Submissions one at a time -/

theorem kick_full (w : World) (self : Nat)
    (h : (w.scopes self)._max_requests ≤ (w.scopes self)._requests_in_progress_count) :
    _kickQueue w self = some w := by
  have hs : _shouldProcessQueue w self = false := by
    unfold _shouldProcessQueue
    split
    · rfl
    · rw [if_pos (by omega)]
  cases hq : w._queue.length with
  | zero => simp [_kickQueue, _processQueue, hq, processLoop, hs]
  | succ n => simp [_kickQueue, _processQueue, hq, processLoop, hs]

theorem kick_one (w : World) (self x : Nat) (h : w._queue = [x])
    (hc : (w.heap x).is_cancelled = false)
    (hr : (w.scopes self)._requests_in_progress_count < (w.scopes self)._max_requests) :
    _kickQueue w self = some (_doRequest { w with _queue := [] } self x) := by
  have hs : _shouldProcessQueue w self = true := by
    unfold _shouldProcessQueue
    simp only [h, peek]
    simp
    omega
  have hn : (next w.comparer [x]) = (some x, []) := by
    simp [next, peek, removeAtIndex, _bubbleDownFrom, bubbleDownLoop]
  have ht : processTurn w self = some (_doRequest { w with _queue := [] } self x) := by
    simp only [processTurn, h, hn, hc]
    simp
  have hs2 : _shouldProcessQueue (_doRequest { w with _queue := [] } self x) self = false := by
    simp [_shouldProcessQueue, _doRequest, peek]
  simp [_kickQueue, _processQueue, h, processLoop, hs, ht, hs2]

theorem queueRequest_one (w : World) (self : Nat) (method url : String) (data : Option String)
    (options : OptionsArg) (done : Option Nat) (guid : Nat) (h : w._queue = [])
    (hr : (w.scopes self)._requests_in_progress_count < (w.scopes self)._max_requests) :
    _queueRequest w self method url data options done guid
      = some (_doRequest (w.alloc (newRequest w self method url data options done guid)) self
          w.allocated, guid) := by
  unfold _queueRequest
  simp only
  rw [kick_one _ self w.allocated]
  · simp [queueAdd, World.alloc, h, newRequest]
  · simp [queueAdd, World.alloc, h, add, _bubbleUpFrom]
  · simp [queueAdd, World.alloc, newRequest]
  · simpa [queueAdd, World.alloc] using hr

theorem queueRequest_full (w : World) (self : Nat) (method url : String) (data : Option String)
    (options : OptionsArg) (done : Option Nat) (guid : Nat)
    (hr : (w.scopes self)._max_requests ≤ (w.scopes self)._requests_in_progress_count) :
    _queueRequest w self method url data options done guid
      = some (queueAdd (w.alloc (newRequest w self method url data options done guid))
          w.allocated, guid) := by
  unfold _queueRequest
  simp only
  rw [kick_full _ self (by simpa [queueAdd, World.alloc] using hr)]
  simp [newRequest]

/-! ## The scenarios of the specification, run on the code -/

/-- C7, as stated, fails: the three submissions P1 (priority 1), P2 (priority 10), P3
(priority 5) run, and afterwards it is not the case that exactly P2 and P3 (references 1 and 2)
are in `_requests_in_progress` and P1 (reference 0) is in the queue. -/
theorem C7_counterexample :
    run (World.init 100) [submit 0 1 1, submit 0 10 2, submit 0 5 3]
      = some (after [submit 0 1 1, submit 0 10 2, submit 0 5 3]) ∧
    ¬ ((∀ r, r ∈ inFlight (after [submit 0 1 1, submit 0 10 2, submit 0 5 3]) 0
          ↔ (r = 1 ∨ r = 2)) ∧
       0 ∈ (after [submit 0 1 1, submit 0 10 2, submit 0 5 3])._queue) := by
  refine ⟨rfl, fun h => ?_⟩
  have h0 : (0 : Nat) ∈ inFlight (after [submit 0 1 1, submit 0 10 2, submit 0 5 3]) 0 := by
    decide
  have := (h.1 0).mp h0
  omega

/-- C7, as amended: on the initial instance (ceiling 2), submitting through `_queueRequest` the
records P1 (priority 1), P2 (priority 10), P3 (priority 5) in that order, with distinct GUIDs for
P1 and P2 and no completion, leaves exactly P1 and P2 dispatched (in `_requests_in_progress`,
their transport calls outstanding) and P3 alone in the queue: each submission kicks the queue
at once, so P1 and P2 go out before P3 exists. -/
theorem C7_first_two_submitted_dispatched (guid g1 g2 g3 : Nat) (m1 m2 m3 u1 u2 u3 : String)
    (d1 d2 d3 : Option String) (c1 c2 c3 t1 t2 t3 : Option Nat) (q1 q2 q3 : Option Bool)
    (f1 f2 f3 : Option Nat) (hg : g1 ≠ g2) :
    ∃ w, run (World.init guid)
        [Action.queueRequest 0 m1 u1 d1 (OptionsArg.object (some 1) c1 t1 q1) f1 g1,
         Action.queueRequest 0 m2 u2 d2 (OptionsArg.object (some 10) c2 t2 q2) f2 g2,
         Action.queueRequest 0 m3 u3 d3 (OptionsArg.object (some 5) c3 t3 q3) f3 g3] = some w ∧
      (w.scopes 0)._requests_in_progress = [(g1, 0), (g2, 1)] ∧
      w.ajax = [(0, 0), (0, 1)] ∧
      w._queue = [2] ∧
      (w.heap 0).priority = 1 ∧ (w.heap 1).priority = 10 ∧ (w.heap 2).priority = 5 := by
  simp only [run, step]
  rw [if_pos (by simp [World.init]), queueRequest_one _ _ _ _ _ _ _ _ (by simp [World.init])
    (by simp [World.init, restque.new])]
  simp only [Option.map_some']
  rw [if_pos (by simp [World.init, _doRequest, World.alloc]),
    queueRequest_one _ _ _ _ _ _ _ _ (by simp [World.init, _doRequest, World.alloc])
    (by simp [World.init, restque.new, _doRequest, World.alloc])]
  simp only [Option.map_some']
  rw [if_pos (by simp [World.init, _doRequest, World.alloc]),
    queueRequest_full _ _ _ _ _ _ _ _
    (by simp [World.init, restque.new, _doRequest, World.alloc])]
  simp only [Option.map_some']
  refine ⟨_, rfl, ?_, ?_, ?_, ?_, ?_, ?_⟩
  · simp [World.init, restque.new, _doRequest, World.alloc, queueAdd, newRequest, objSet, hg]
  · simp [World.init, restque.new, _doRequest, World.alloc, queueAdd, newRequest]
  · simp [World.init, restque.new, _doRequest, World.alloc, queueAdd, newRequest, add,
      _bubbleUpFrom]
  · simp [World.init, restque.new, _doRequest, World.alloc, queueAdd, newRequest,
      OptionsArg.priority]
  · simp [World.init, restque.new, _doRequest, World.alloc, queueAdd, newRequest,
      OptionsArg.priority]
  · simp [World.init, restque.new, _doRequest, World.alloc, queueAdd, newRequest,
      OptionsArg.priority]

/-- C7, as amended, at GUIDs 1, 2, 3 for the records and 100 for the instance. -/
theorem C7_first_two_submitted_dispatched_witness :
    (1 : Nat) ≠ 2 ∧
    ∃ w, run (World.init 100)
        [Action.queueRequest 0 "GET" "/a" none (OptionsArg.object (some 1) none none none)
           (some 7) 1,
         Action.queueRequest 0 "GET" "/b" none (OptionsArg.object (some 10) none none none)
           (some 7) 2,
         Action.queueRequest 0 "GET" "/c" none (OptionsArg.object (some 5) none none none)
           (some 7) 3] = some w ∧
      (w.scopes 0)._requests_in_progress = [(1, 0), (2, 1)] ∧
      w.ajax = [(0, 0), (0, 1)] ∧
      w._queue = [2] ∧
      (w.heap 0).priority = 1 ∧ (w.heap 1).priority = 10 ∧ (w.heap 2).priority = 5 :=
  ⟨by decide, C7_first_two_submitted_dispatched 100 1 2 3 "GET" "GET" "GET" "/a" "/b" "/c"
    none none none none none none none none none none none none (some 7) (some 7) (some 7)
    (by decide)⟩

/-- C8: for a record with `is_cancelled = true`, `_requestCompleted` emits nothing, whatever
`err`, the status code, `quiet`, `done` and `context` are: no `done` call, no `trigger`. -/
theorem C8_cancelled_completion_is_silent (w : World) (self : Nat) (err : Option String)
    (request : Nat) (response : Response) (hc : (w.heap request).is_cancelled = true) :
    completionEffects self err request (w.heap request) response = [] ∧
    (_requestCompleted w self err request response).effects = w.effects := by
  have h : completionEffects self err request (w.heap request) response = [] := by
    unfold completionEffects
    rw [hc]
    simp only [Bool.not_true, Bool.false_and, Bool.false_eq_true, if_false]
    split <;> rfl
  exact ⟨h, by simp [_requestCompleted, h]⟩

/-- C8 at the record submitted, dispatched and then cancelled on the first instance, completing
with status 200. -/
theorem C8_cancelled_completion_is_silent_witness :
    ((after [submit 0 1 1, Action.cancel 0]).heap 0).is_cancelled = true ∧
    completionEffects 0 none 0 ((after [submit 0 1 1, Action.cancel 0]).heap 0)
      { status_code := 200, body := "ok" } = [] ∧
    (_requestCompleted (after [submit 0 1 1, Action.cancel 0]) 0 none 0
      { status_code := 200, body := "ok" }).effects
      = (after [submit 0 1 1, Action.cancel 0]).effects :=
  ⟨by decide, C8_cancelled_completion_is_silent (after [submit 0 1 1, Action.cancel 0]) 0 none 0
    { status_code := 200, body := "ok" } (by decide)⟩

/-- C10: for a record with `is_cancelled = false` and a response with status code 401,
`_requestCompleted` emits exactly one effect, `trigger('authentication_required', [request,
response])`, whatever `quiet`, `done`, `context` and `err` are. -/
theorem C10_unauthorized_is_announced (w : World) (self : Nat) (err : Option String)
    (request : Nat) (response : Response) (hc : (w.heap request).is_cancelled = false)
    (hs : response.status_code = 401) :
    (_requestCompleted w self err request response).effects
      = w.effects ++ [Effect.trigger self EventName.authentication_required request response] := by
  simp [_requestCompleted, completionEffects, hc, hs]

/-- C10 at a dispatched record submitted with `quiet` set and no `done` callback. -/
theorem C10_unauthorized_is_announced_witness :
    ((after [Action.queueRequest 0 "GET" "/a" none (OptionsArg.object none none none (some true))
        none 1]).heap 0).is_cancelled = false ∧
    ({ status_code := 401, body := "" } : Response).status_code = 401 ∧
    (_requestCompleted
      (after [Action.queueRequest 0 "GET" "/a" none (OptionsArg.object none none none (some true))
        none 1]) 0 none 0 { status_code := 401, body := "" }).effects
      = (after [Action.queueRequest 0 "GET" "/a" none
          (OptionsArg.object none none none (some true)) none 1]).effects ++
        [Effect.trigger 0 EventName.authentication_required 0 { status_code := 401, body := "" }] :=
  ⟨by decide, rfl, C10_unauthorized_is_announced _ 0 none 0 { status_code := 401, body := "" }
    (by decide) rfl⟩

/-- C5, on the code: instance 1 is made by `taggedRestque` from instance 0 (GUID 100); instance
0 submits three requests, the third of which (reference 2) stays queued at the ceiling; the
kick of a submission on instance 1 dispatches it into instance 1's `_requests_in_progress`.
After `cancel()` on instance 0 that request, whose `restque_id` is instance 0's id, is still
there, its transport call is outstanding, `is_cancelled` is `false` and `abort()` was never
called on its handle. -/
theorem C5_foreign_dispatch_escapes_cancel :
    run (World.init 100)
        [Action.taggedRestque 0 200, submit 0 1 1, submit 0 1 2, submit 0 1 3, submit 1 1 4,
          Action.cancel 0]
      = some (after [Action.taggedRestque 0 200, submit 0 1 1, submit 0 1 2, submit 0 1 3,
          submit 1 1 4, Action.cancel 0]) ∧
    ((after [Action.taggedRestque 0 200, submit 0 1 1, submit 0 1 2, submit 0 1 3,
        submit 1 1 4, Action.cancel 0]).heap 2).restque_id
      = ((after [Action.taggedRestque 0 200, submit 0 1 1, submit 0 1 2, submit 0 1 3,
        submit 1 1 4, Action.cancel 0]).scopes 0)._id ∧
    ((after [Action.taggedRestque 0 200, submit 0 1 1, submit 0 1 2, submit 0 1 3,
        submit 1 1 4, Action.cancel 0]).scopes 1)._requests_in_progress = [(3, 2), (4, 3)] ∧
    (after [Action.taggedRestque 0 200, submit 0 1 1, submit 0 1 2, submit 0 1 3,
        submit 1 1 4, Action.cancel 0]).ajax = [(0, 0), (0, 1), (1, 2), (1, 3)] ∧
    ((after [Action.taggedRestque 0 200, submit 0 1 1, submit 0 1 2, submit 0 1 3,
        submit 1 1 4, Action.cancel 0]).heap 2).is_cancelled = false ∧
    ((after [Action.taggedRestque 0 200, submit 0 1 1, submit 0 1 2, submit 0 1 3,
        submit 1 1 4, Action.cancel 0]).heap 2).handle = some { aborted := 0 } :=
  ⟨rfl, by decide, by decide, by decide, by decide, by decide⟩

/-- C9, on the code: a request is submitted and dispatched on the first instance, `cancel()`
removes it from `_requests_in_progress` and lowers the count to 0, and the transport's
completion for it then lowers the count again: `_requests_in_progress` is empty and
`_requests_in_progress_count` is -1. -/
theorem C9_completion_after_cancel_decrements_again :
    run (World.init 100) [submit 0 1 1, Action.cancel 0]
      = some (after [submit 0 1 1, Action.cancel 0]) ∧
    ((after [submit 0 1 1, Action.cancel 0]).heap 0).is_cancelled = true ∧
    ((after [submit 0 1 1, Action.cancel 0]).scopes 0)._requests_in_progress = [] ∧
    ((after [submit 0 1 1, Action.cancel 0]).scopes 0)._requests_in_progress_count = 0 ∧
    (after [submit 0 1 1, Action.cancel 0]).ajax = [(0, 0)] ∧
    ((_requestCompleted (ajaxDone (after [submit 0 1 1, Action.cancel 0]) 0) 0 (some "abort") 0
      { status_code := 0, body := "" }).scopes 0)._requests_in_progress = [] ∧
    ((_requestCompleted (ajaxDone (after [submit 0 1 1, Action.cancel 0]) 0) 0 (some "abort") 0
      { status_code := 0, body := "" }).scopes 0)._requests_in_progress_count = -1 :=
  ⟨rfl, by decide, by decide, by decide, by decide, by decide, by decide⟩

/-! ## `_cancelRequest` and the first loop of `cancel` -/

theorem Request.UpToCancel.refl (a : Request) : a.UpToCancel a :=
  ⟨rfl, fun h => h, Iff.rfl⟩

theorem Request.UpToCancel.trans {a b c : Request} (h1 : a.UpToCancel b) (h2 : b.UpToCancel c) :
    a.UpToCancel c := by
  obtain ⟨e1, c1, n1⟩ := h1
  obtain ⟨e2, c2, n2⟩ := h2
  refine ⟨?_, fun h => c2 (c1 h), n2.trans n1⟩
  rw [e2, e1]

theorem cancelRequest_other (heap : Nat → Request) (request r : Nat) (h : r ≠ request) :
    _cancelRequest heap request r = heap r := by
  simp [_cancelRequest, Function.update_noteq h]

theorem cancelRequest_self (heap : Nat → Request) (request : Nat) :
    (_cancelRequest heap request request).is_cancelled = true := by
  simp [_cancelRequest]

theorem cancelRequest_stable (heap : Nat → Request) (request r : Nat) :
    (heap r).UpToCancel (_cancelRequest heap request r) := by
  by_cases h : r = request
  · subst h
    refine ⟨?_, fun _ => cancelRequest_self heap r, ?_⟩
    · simp [_cancelRequest]
    · simp [_cancelRequest]
  · rw [cancelRequest_other heap request r h]
    exact Request.UpToCancel.refl _

theorem Request.UpToCancel.restque_id {a b : Request} (h : a.UpToCancel b) :
    b.restque_id = a.restque_id := by
  rw [h.1]

theorem Request.UpToCancel.priority {a b : Request} (h : a.UpToCancel b) :
    b.priority = a.priority := by
  rw [h.1]

theorem Request.UpToCancel.id {a b : Request} (h : a.UpToCancel b) : b.id = a.id := by
  rw [h.1]

theorem objGet_of_mem (m : List (Nat × Nat)) (k v : Nat) (hm : (k, v) ∈ m)
    (hn : (m.map Prod.fst).Nodup) : objGet m k = some v := by
  induction m with
  | nil => simp at hm
  | cons kv rest ih =>
    obtain ⟨k1, v1⟩ := kv
    simp only [List.map_cons, List.nodup_cons] at hn
    rcases List.mem_cons.mp hm with e | e
    · cases e
      simp [objGet]
    · have hne : k1 ≠ k := by
        intro hk
        subst hk
        exact hn.1 (List.mem_map_of_mem Prod.fst e)
      simp only [objGet, if_neg hne]
      exact ih e hn.2

theorem objDelete_sublist (m : List (Nat × Nat)) (k : Nat) : (objDelete m k).Sublist m :=
  List.filter_sublist m

/-- The first loop of `cancel` on a map without a repeated key, over the keys of a tail `todo`
of the map: the entries before the tail stay, those of the tail stay when their request is not
the scope's. -/
theorem cancelInProgress_spec (id : Nat) (todo kept : List (Nat × Nat)) (heap : Nat → Request)
    (count : Int) (hn : ((kept ++ todo).map Prod.fst).Nodup) :
    (cancelInProgress id (todo.map Prod.fst) (heap, kept ++ todo, count)).2.1
        = kept ++ todo.filter (fun kv => !ownedBy heap id kv.2) ∧
    (∀ r, (heap r).UpToCancel
      ((cancelInProgress id (todo.map Prod.fst) (heap, kept ++ todo, count)).1 r)) ∧
    (∀ r, (heap r).restque_id ≠ id →
      (cancelInProgress id (todo.map Prod.fst) (heap, kept ++ todo, count)).1 r = heap r) := by
  induction todo generalizing kept heap count with
  | nil =>
    refine ⟨by simp [cancelInProgress], fun r => ?_, fun r _ => by simp [cancelInProgress]⟩
    simp only [List.map_nil, cancelInProgress]
    exact Request.UpToCancel.refl _
  | cons kv rest ih =>
    obtain ⟨k, v⟩ := kv
    have hget : objGet (kept ++ (k, v) :: rest) k = some v :=
      objGet_of_mem _ k v (by simp) hn
    simp only [List.map_cons, cancelInProgress, hget]
    by_cases hv : (heap v).restque_id = id
    · rw [if_pos hv]
      have hn1 : (kept.map Prod.fst ++ k :: rest.map Prod.fst).Nodup := by
        simpa using hn
      have hk1 : ∀ kv ∈ kept, kv.1 ≠ k := by
        intro kv hkv e
        have hd := (List.nodup_append.mp hn1).2.2
        exact hd (List.mem_map_of_mem Prod.fst hkv) (by simp [e])
      have hk2 : ∀ kv ∈ rest, kv.1 ≠ k := by
        intro kv hkv e
        have hd := (List.nodup_cons.mp (List.nodup_append.mp hn1).2.1).1
        exact hd (by rw [← e]; exact List.mem_map_of_mem Prod.fst hkv)
      have hdel : objDelete (kept ++ (k, v) :: rest) k = kept ++ rest := by
        unfold objDelete
        rw [List.filter_append, List.filter_cons]
        simp only [ne_eq, not_true_eq_false, decide_False, Bool.false_eq_true, if_false]
        rw [List.filter_eq_self.mpr (fun kv hkv => by simpa using hk1 kv hkv),
          List.filter_eq_self.mpr (fun kv hkv => by simpa using hk2 kv hkv)]
      have hn2 : ((kept ++ rest).map Prod.fst).Nodup := by
        have hsub : ((kept ++ rest).map Prod.fst).Sublist
            ((kept ++ (k, v) :: rest).map Prod.fst) :=
          List.Sublist.map _ (List.Sublist.append_left (List.sublist_cons_self _ _) kept)
        exact List.Nodup.sublist hsub hn
      rw [hdel]
      have := ih kept (_cancelRequest heap v) (count - 1) hn2
      have hown : ∀ r, ownedBy (_cancelRequest heap v) id r = ownedBy heap id r := by
        intro r
        simp only [ownedBy, (cancelRequest_stable heap v r).restque_id]
      refine ⟨?_, fun r => ?_, fun r hr => ?_⟩
      · rw [this.1, List.filter_cons]
        have hv2 : ownedBy heap id v = true := by simp [ownedBy, hv]
        simp only [hown, hv2, Bool.not_true, Bool.false_eq_true, if_false]
      · exact (cancelRequest_stable heap v r).trans (this.2.1 r)
      · rw [this.2.2 r (by rw [(cancelRequest_stable heap v r).restque_id]; exact hr)]
        apply cancelRequest_other
        intro e
        subst e
        exact hr hv
    · rw [if_neg hv]
      have := ih (kept ++ [(k, v)]) heap count (by simpa using hn)
      simp only [List.append_assoc, List.singleton_append] at this
      refine ⟨?_, this.2⟩
      rw [this.1]
      simp [List.filter_cons, ownedBy, hv]

/-! ## The second loop of `cancel` and its recursion -/

theorem peekAtIndex_valid (q : List Nat) (i x : Nat) (h : q[i]? = some x) :
    peekAtIndex q (i : Int) = Peeked.object x := by
  have hi : i < q.length := by
    by_contra hc
    rw [List.getElem?_eq_none (by omega)] at h
    simp at h
  unfold peekAtIndex
  rw [if_neg (by omega)]
  simp only [Int.toNat_ofNat, h]

/-- What the scan returns when it covers the array from index `i` to its end: never an
exception; a found index holds a request of the scope; without one, no request from `i` on is
the scope's. -/
theorem cancelScan_spec (heap : Nat → Request) (id : Nat) (q : List Nat) (n i : Nat)
    (h : i + n = q.length) :
    (∀ k r, cancelScan heap id q n i = Scan.found k r →
      q[k]? = some r ∧ (heap r).restque_id = id) ∧
    (cancelScan heap id q n i = Scan.absent → ∀ r ∈ q.drop i, (heap r).restque_id ≠ id) ∧
    cancelScan heap id q n i ≠ Scan.typeError := by
  induction n generalizing i with
  | zero =>
    simp only [cancelScan]
    refine ⟨fun k r hk => by simp at hk, fun _ r hr => ?_, by simp⟩
    rw [List.drop_of_length_le (by omega)] at hr
    simp at hr
  | succ n ih =>
    have hi : i < q.length := by omega
    have hx : q[i]? = some q[i] := List.getElem?_eq_getElem hi
    simp only [cancelScan, peekAtIndex_valid q i q[i] hx]
    by_cases ho : (heap q[i]).restque_id = id
    · rw [if_pos ho]
      refine ⟨fun k r hk => ?_, fun hk => by simp at hk, by simp⟩
      simp only [Scan.found.injEq] at hk
      obtain ⟨rfl, rfl⟩ := hk
      exact ⟨hx, ho⟩
    · rw [if_neg ho]
      obtain ⟨h1, h2, h3⟩ := ih (i + 1) (by omega)
      refine ⟨h1, fun hk r hr => ?_, h3⟩
      rw [List.drop_eq_getElem_cons hi] at hr
      rcases List.mem_cons.mp hr with e | e
      · subst e; exact ho
      · exact h2 hk r e

/-- Removing at a valid index removes the object at that index and keeps the rest. -/
theorem removeAtIndex_perm_cons {α : Type} (comparer : α → α → Int) (q : List α) (i : Nat)
    (a : α) (h : q[i]? = some a) : (a :: removeAtIndex comparer q (i : Int)).Perm q := by
  have hi : i < q.length := by
    by_contra hc
    rw [List.getElem?_eq_none (by omega)] at h
    simp at h
  obtain ⟨pre, b, suf, hq, hpre⟩ := split_at q i hi
  subst hq
  subst hpre
  rw [List.getElem?_append_right (Nat.le_refl _)] at h
  simp only [Nat.sub_self, List.getElem?_cons_zero, Option.some.injEq] at h
  subst h
  exact (List.Perm.cons b (removeAtIndex_perm comparer pre b suf)).trans
    (List.perm_middle (a := b)).symm

theorem cancelOwn_keys (w : World) (self : Nat)
    (hk : ((w.scopes self)._requests_in_progress.map Prod.fst).Nodup) :
    ((cancelOwnInProgress w self).scopes self)._requests_in_progress
      = (w.scopes self)._requests_in_progress.filter
          (fun kv => !ownedBy w.heap (w.scopes self)._id kv.2) := by
  have := (cancelInProgress_spec (w.scopes self)._id (w.scopes self)._requests_in_progress []
    w.heap (w.scopes self)._requests_in_progress_count (by simpa using hk)).1
  simpa [cancelOwnInProgress] using this

theorem cancelOwn_stable (w : World) (self : Nat)
    (hk : ((w.scopes self)._requests_in_progress.map Prod.fst).Nodup) (r : Nat) :
    (w.heap r).UpToCancel ((cancelOwnInProgress w self).heap r) := by
  have := (cancelInProgress_spec (w.scopes self)._id (w.scopes self)._requests_in_progress []
    w.heap (w.scopes self)._requests_in_progress_count (by simpa using hk)).2.1 r
  simpa [cancelOwnInProgress] using this

theorem cancelOwn_frame (w : World) (self : Nat)
    (hk : ((w.scopes self)._requests_in_progress.map Prod.fst).Nodup) (r : Nat)
    (hr : (w.heap r).restque_id ≠ (w.scopes self)._id) :
    (cancelOwnInProgress w self).heap r = w.heap r := by
  have := (cancelInProgress_spec (w.scopes self)._id (w.scopes self)._requests_in_progress []
    w.heap (w.scopes self)._requests_in_progress_count (by simpa using hk)).2.2 r hr
  simpa [cancelOwnInProgress] using this

theorem cancelOwn_others (w : World) (self i : Nat) (hi : i ≠ self) :
    (cancelOwnInProgress w self).scopes i = w.scopes i := by
  simp [cancelOwnInProgress, Function.update_noteq hi]

theorem cancelOwn_id (w : World) (self : Nat) :
    ((cancelOwnInProgress w self).scopes self)._id = (w.scopes self)._id := by
  simp [cancelOwnInProgress]

theorem ownedBy_stable (h1 h2 : Nat → Request) (id : Nat)
    (hs : ∀ r, (h1 r).UpToCancel (h2 r)) : ownedBy h2 id = ownedBy h1 id := by
  funext r
  simp only [ownedBy, (hs r).restque_id]

theorem cancelFuel_spec (n : Nat) (w : World) (self : Nat) (hn : w._queue.length < n)
    (hk : ((w.scopes self)._requests_in_progress.map Prod.fst).Nodup) :
    ∃ w1, cancelFuel n w self = some w1 ∧ CancelPost w self w1 := by
  induction n generalizing w with
  | zero => omega
  | succ n ih =>
    have hst := cancelOwn_stable w self hk
    have hfr := cancelOwn_frame w self hk
    have hid := cancelOwn_id w self
    have hown := cancelOwn_keys w self hk
    have hq : (cancelOwnInProgress w self)._queue = w._queue := rfl
    obtain ⟨s1, s2, s3⟩ := cancelScan_spec (cancelOwnInProgress w self).heap
      ((cancelOwnInProgress w self).scopes self)._id (cancelOwnInProgress w self)._queue
      (count (cancelOwnInProgress w self)._queue) 0 (by simp [count])
    simp only [cancelFuel]
    cases hscan : cancelScan (cancelOwnInProgress w self).heap
        ((cancelOwnInProgress w self).scopes self)._id (cancelOwnInProgress w self)._queue
        (count (cancelOwnInProgress w self)._queue) 0 with
    | typeError => exact absurd hscan s3
    | absent =>
      refine ⟨_, rfl, ?_⟩
      have hall : ∀ r ∈ w._queue, (w.heap r).restque_id ≠ (w.scopes self)._id := by
        intro r hr
        have := s2 hscan r (by simpa [hq] using hr)
        rwa [(hst r).restque_id, hid] at this
      exact
        { heap_stable := hst
          heap_frame := hfr
          queue := by
            rw [hq, List.filter_eq_self.mpr]
            intro r hr
            simpa [ownedBy] using hall r hr
          queued_cancelled := fun r hr ho => absurd ho (hall r hr)
          others := fun i hi => cancelOwn_others w self i hi
          own := hown
          own_id := hid
          allocated := rfl
          instances := rfl
          ajax := rfl
          effects := rfl }
    | found i request =>
      obtain ⟨hget, hreq⟩ := s1 i request hscan
      rw [hq] at hget
      rw [hid] at hreq
      have hperm : (request :: (cancelQueued (cancelOwnInProgress w self) i request)._queue).Perm
          w._queue := removeAtIndex_perm_cons _ w._queue i request hget
      have hlen : (cancelQueued (cancelOwnInProgress w self) i request)._queue.length < n := by
        have := hperm.length_eq
        simp only [List.length_cons] at this
        omega
      have hsc : (cancelQueued (cancelOwnInProgress w self) i request).scopes
          = (cancelOwnInProgress w self).scopes := rfl
      have hk2 : (List.map Prod.fst
          ((cancelQueued (cancelOwnInProgress w self) i request).scopes self)._requests_in_progress
          ).Nodup := by
        rw [hsc, hown]
        exact List.Nodup.sublist (List.Sublist.map _ (List.filter_sublist _)) hk
      obtain ⟨w1, hw1, post⟩ := ih _ hlen hk2
      have hst2 : ∀ r, (w.heap r).UpToCancel
          ((cancelQueued (cancelOwnInProgress w self) i request).heap r) :=
        fun r => (hst r).trans (cancelRequest_stable _ request r)
      have hid2 : ((cancelQueued (cancelOwnInProgress w self) i request).scopes self)._id
          = (w.scopes self)._id := by rw [hsc, hid]
      have hownEq : ownedBy (cancelQueued (cancelOwnInProgress w self) i request).heap
          (w.scopes self)._id = ownedBy w.heap (w.scopes self)._id :=
        ownedBy_stable _ _ _ hst2
      have hreq0 : (w.heap request).restque_id = (w.scopes self)._id := by
        rw [← (hst request).restque_id]; exact hreq
      refine ⟨w1, hw1, ?_⟩
      exact
        { heap_stable := fun r => (hst2 r).trans (post.heap_stable r)
          heap_frame := by
            intro r hr
            rw [post.heap_frame r (by rw [(hst2 r).restque_id, hid2]; exact hr)]
            have hne : r ≠ request := by
              intro e
              subst e
              exact hr hreq0
            show _cancelRequest (cancelOwnInProgress w self).heap request r = w.heap r
            rw [cancelRequest_other _ request r hne]
            exact hfr r hr
          queue := by
            refine post.queue.trans ?_
            rw [hid2, hownEq]
            have := List.Perm.filter (fun r => !ownedBy w.heap (w.scopes self)._id r) hperm
            rw [List.filter_cons] at this
            have ho : ownedBy w.heap (w.scopes self)._id request = true := by
              simp [ownedBy, hreq0]
            simpa [ho] using this
          queued_cancelled := by
            intro r hr ho
            rcases List.mem_cons.mp (hperm.mem_iff.mpr hr) with e | e
            · subst e
              exact (post.heap_stable r).2.1 (cancelRequest_self _ r)
            · exact post.queued_cancelled r e (by rw [(hst2 r).restque_id, hid2]; exact ho)
          others := by
            intro j hj
            rw [post.others j hj, hsc]
            exact cancelOwn_others w self j hj
          own := by
            rw [post.own, hid2, hownEq, hsc, hown, List.filter_filter]
            simp
          own_id := by rw [post.own_id, hid2]
          allocated := by rw [post.allocated]; rfl
          instances := by rw [post.instances]; rfl
          ajax := by rw [post.ajax]; rfl
          effects := by rw [post.effects]; rfl }

/-- The method `cancel()` returns, in every state whose map has no key twice. -/
theorem cancel_spec (w : World) (self : Nat)
    (hk : ((w.scopes self)._requests_in_progress.map Prod.fst).Nodup) :
    ∃ w1, cancel w self = some w1 ∧ CancelPost w self w1 :=
  cancelFuel_spec _ w self (Nat.lt_succ_self _) hk

/-! ## Where request objects are: the invariant `Good` -/

theorem objSet_mem (m : List (Nat × Nat)) (k v : Nat) (kv : Nat × Nat)
    (h : kv ∈ objSet m k v) : kv ∈ m ∨ kv = (k, v) := by
  induction m with
  | nil => simpa [objSet] using h
  | cons e rest ih =>
    obtain ⟨k1, v1⟩ := e
    simp only [objSet] at h
    split at h
    · rename_i hk
      rcases List.mem_cons.mp h with e | e
      · right; rw [e, hk]
      · left; exact List.mem_cons_of_mem _ e
    · rcases List.mem_cons.mp h with e | e
      · left; rw [e]; exact List.mem_cons_self _ _
      · rcases ih e with h1 | h1
        · left; exact List.mem_cons_of_mem _ h1
        · right; exact h1

theorem objSet_nodup (m : List (Nat × Nat)) (k v : Nat) (h : (m.map Prod.fst).Nodup) :
    ((objSet m k v).map Prod.fst).Nodup := by
  induction m with
  | nil => simp [objSet]
  | cons e rest ih =>
    obtain ⟨k1, v1⟩ := e
    simp only [List.map_cons, List.nodup_cons] at h
    simp only [objSet]
    split
    · simpa using h
    · rename_i hk
      simp only [List.map_cons, List.nodup_cons]
      refine ⟨?_, ih h.2⟩
      intro hmem
      obtain ⟨kv, hkv, e⟩ := List.mem_map.mp hmem
      rcases objSet_mem rest k v kv hkv with h1 | h1
      · exact h.1 (by rw [← e]; exact List.mem_map_of_mem Prod.fst h1)
      · rw [h1] at e
        exact hk e.symm

/-- What one turn of the drain loop does: it takes the head `x` of the array off the queue and,
unless `x` is cancelled, dispatches it. -/
theorem processTurn_cases (w : World) (self : Nat) (w1 : World)
    (h : processTurn w self = some w1) :
    ∃ x q, peek w._queue = some x ∧ (x :: q).Perm w._queue ∧
      (((w.heap x).is_cancelled = true ∧ w1 = { w with _queue := q }) ∨
       ((w.heap x).is_cancelled = false ∧ w1 = _doRequest { w with _queue := q } self x)) := by
  unfold processTurn at h
  simp only at h
  cases hq : w._queue with
  | nil => simp [hq, next] at h
  | cons x rest =>
    obtain ⟨h1, h2⟩ := next_cons w.comparer x rest
    rw [hq, h1] at h
    simp only [Option.some.injEq] at h
    refine ⟨x, (next w.comparer (x :: rest)).2, by simp [peek], List.Perm.cons x h2, ?_⟩
    cases hc : (w.heap x).is_cancelled with
    | true => left; simp [hc] at h; exact ⟨rfl, h.symm⟩
    | false => right; simp [hc] at h; exact ⟨rfl, h.symm⟩

theorem doRequest_handle (w : World) (self x r : Nat) (h : (w.heap r).handle ≠ none) :
    ((_doRequest w self x).heap r).handle ≠ none := by
  by_cases e : r = x
  · subst e; simp [_doRequest]
  · simpa [_doRequest, Function.update_noteq e] using h

theorem good_queue_sub (w : World) (q : List Nat) (x : Nat) (hg : Good w)
    (hp : (x :: q).Perm w._queue) : Good { w with _queue := q } :=
  { queued := fun r hr => hg.queued r (hp.mem_iff.mp (List.mem_cons_of_mem _ hr))
    queue_nodup := (List.nodup_cons.mp (hp.nodup_iff.mpr hg.queue_nodup)).2
    outstanding := hg.outstanding
    in_progress := hg.in_progress
    reported := hg.reported
    keys := hg.keys }

theorem good_doRequest (w : World) (q : List Nat) (self x : Nat) (hg : Good w)
    (hp : (x :: q).Perm w._queue) : Good (_doRequest { w with _queue := q } self x) := by
  have hx := hg.queued x (hp.mem_iff.mp (List.mem_cons_self _ _))
  have hnd := List.nodup_cons.mp (hp.nodup_iff.mpr hg.queue_nodup)
  refine
    { queued := ?_, queue_nodup := hnd.2, outstanding := ?_, in_progress := ?_, reported := ?_,
      keys := ?_ }
  · intro r hr
    have hr1 : r ∈ q := hr
    have hne : r ≠ x := fun e => hnd.1 (e ▸ hr1)
    have := hg.queued r (hp.mem_iff.mp (List.mem_cons_of_mem _ hr1))
    simpa [_doRequest, Function.update_noteq hne] using this
  · intro p hp1
    have hp2 : p ∈ w.ajax ++ [(self, x)] := hp1
    rcases List.mem_append.mp hp2 with e | e
    · exact ⟨(hg.outstanding p e).1, doRequest_handle _ self x p.2 (hg.outstanding p e).2⟩
    · simp only [List.mem_singleton] at e
      subst e
      exact ⟨hx.1, by simp [_doRequest]⟩
  · intro i kv hkv
    by_cases hi : i = self
    · subst hi
      simp only [_doRequest, Function.update_same] at hkv
      rcases objSet_mem _ _ _ kv hkv with e | e
      · exact ⟨(hg.in_progress i kv e).1, doRequest_handle _ i x kv.2 (hg.in_progress i kv e).2⟩
      · subst e
        exact ⟨hx.1, by simp [_doRequest]⟩
    · simp only [_doRequest, Function.update_noteq hi] at hkv
      exact ⟨(hg.in_progress i kv hkv).1,
        doRequest_handle _ self x kv.2 (hg.in_progress i kv hkv).2⟩
  · intro e he
    exact ⟨(hg.reported e he).1, doRequest_handle _ self x e.request (hg.reported e he).2⟩
  · intro i
    by_cases hi : i = self
    · subst hi
      simp only [_doRequest, Function.update_same]
      exact objSet_nodup _ _ _ (hg.keys i)
    · simp only [_doRequest, Function.update_noteq hi]
      exact hg.keys i

theorem good_enqueue (w : World) (request : Request) (hg : Good w)
    (hh : request.handle = none) : Good (queueAdd (w.alloc request) w.allocated) := by
  have hperm : (queueAdd (w.alloc request) w.allocated)._queue.Perm (w.allocated :: w._queue) :=
    add_perm _ _ _
  have hfresh : w.allocated ∉ w._queue := fun h => Nat.lt_irrefl _ (hg.queued _ h).1
  have hold : ∀ r, r < w.allocated →
      (queueAdd (w.alloc request) w.allocated).heap r = w.heap r := by
    intro r hr
    simp [queueAdd, World.alloc, Function.update_noteq (Nat.ne_of_lt hr)]
  have hal : (queueAdd (w.alloc request) w.allocated).allocated = w.allocated + 1 := rfl
  refine
    { queued := ?_, queue_nodup := ?_, outstanding := ?_, in_progress := ?_, reported := ?_,
      keys := hg.keys }
  · intro r hr
    rcases List.mem_cons.mp (hperm.mem_iff.mp hr) with e | e
    · subst e
      exact ⟨by rw [hal]; omega, by simp [queueAdd, World.alloc, hh]⟩
    · have := hg.queued r e
      exact ⟨by rw [hal]; omega, by rw [hold r this.1]; exact this.2⟩
  · exact hperm.nodup_iff.mpr (List.nodup_cons.mpr ⟨hfresh, hg.queue_nodup⟩)
  · intro p hp
    have := hg.outstanding p hp
    exact ⟨by rw [hal]; omega, by rw [hold _ this.1]; exact this.2⟩
  · intro i kv hkv
    have := hg.in_progress i kv hkv
    exact ⟨by rw [hal]; omega, by rw [hold _ this.1]; exact this.2⟩
  · intro e he
    have := hg.reported e he
    exact ⟨by rw [hal]; omega, by rw [hold _ this.1]; exact this.2⟩

/-- A state change that rewrites one instance without touching its map, and nothing else. -/
theorem good_update (w : World) (self : Nat) (s : restque) (hg : Good w)
    (hs : s._requests_in_progress = (w.scopes self)._requests_in_progress) :
    Good { w with scopes := Function.update w.scopes self s } := by
  have hin : ∀ i, (Function.update w.scopes self s i)._requests_in_progress
      = (w.scopes i)._requests_in_progress := by
    intro i
    by_cases hi : i = self
    · subst hi; simpa using hs
    · simp [Function.update_noteq hi]
  exact
    { queued := hg.queued
      queue_nodup := hg.queue_nodup
      outstanding := hg.outstanding
      in_progress := fun i kv hkv => hg.in_progress i kv (by rw [← hin i]; exact hkv)
      reported := hg.reported
      keys := fun i => by
        show (List.map Prod.fst (Function.update w.scopes self s i)._requests_in_progress).Nodup
        rw [hin i]; exact hg.keys i }

theorem completionEffects_request (self : Nat) (err : Option String) (request : Nat)
    (req : Request) (response : Response) :
    ∀ e ∈ completionEffects self err request req response, e.request = request := by
  intro e he
  unfold completionEffects at he
  split at he
  · simp only [List.mem_singleton] at he
    subst he; rfl
  · split at he
    · split at he
      · rcases List.mem_append.mp he with h | h
        · split at h
          · simp only [List.mem_singleton] at h
            subst h; rfl
          · simp at h
        · split at h
          · simp only [List.mem_singleton] at h
            subst h; rfl
          · simp only [List.mem_singleton] at h
            subst h; rfl
      · simp at he
    · simp at he

/-- A state change that only cancels request objects, only takes objects out of the queue, the
outstanding calls and the maps, and only reports on objects whose call was outstanding. -/
theorem good_shrink (w w1 : World) (hg : Good w)
    (hheap : ∀ r, (w.heap r).UpToCancel (w1.heap r))
    (hq : w1._queue.Nodup ∧ ∀ r ∈ w1._queue, r ∈ w._queue)
    (hal : w1.allocated = w.allocated)
    (hajax : ∀ p ∈ w1.ajax, p ∈ w.ajax)
    (hin : ∀ i, ((w1.scopes i)._requests_in_progress).Sublist
      (w.scopes i)._requests_in_progress)
    (heff : ∀ e ∈ w1.effects, e ∈ w.effects ∨ ∃ p ∈ w.ajax, p.2 = e.request) : Good w1 := by
  have hnone : ∀ r, (w.heap r).handle = none → (w1.heap r).handle = none :=
    fun r h => (hheap r).2.2.mpr h
  have hsome : ∀ r, (w.heap r).handle ≠ none → (w1.heap r).handle ≠ none :=
    fun r h h1 => h ((hheap r).2.2.mp h1)
  refine
    { queued := ?_, queue_nodup := hq.1, outstanding := ?_, in_progress := ?_, reported := ?_,
      keys := ?_ }
  · intro r hr
    have := hg.queued r (hq.2 r hr)
    exact ⟨by rw [hal]; exact this.1, hnone r this.2⟩
  · intro p hp
    have := hg.outstanding p (hajax p hp)
    exact ⟨by rw [hal]; exact this.1, hsome _ this.2⟩
  · intro i kv hkv
    have := hg.in_progress i kv ((hin i).subset hkv)
    exact ⟨by rw [hal]; exact this.1, hsome _ this.2⟩
  · intro e he
    rcases heff e he with h | ⟨p, hp, hpe⟩
    · have := hg.reported e h
      exact ⟨by rw [hal]; exact this.1, hsome _ this.2⟩
    · have := hg.outstanding p hp
      rw [hpe] at this
      exact ⟨by rw [hal]; exact this.1, hsome _ this.2⟩
  · intro i
    exact List.Nodup.sublist (List.Sublist.map _ (hin i)) (hg.keys i)

theorem requestCompleted_in_progress (w : World) (self : Nat) (err : Option String)
    (request : Nat) (response : Response) (i : Nat) :
    ((_requestCompleted w self err request response).scopes i)._requests_in_progress.Sublist
      (w.scopes i)._requests_in_progress := by
  by_cases hi : i = self
  · subst hi
    simp only [_requestCompleted, Function.update_same]
    split
    · exact objDelete_sublist _ _
    · exact List.Sublist.refl _
  · simp only [_requestCompleted, Function.update_noteq hi]
    exact List.Sublist.refl _

theorem good_completed (w : World) (k self request : Nat) (err : Option String)
    (response : Response) (hg : Good w) (hk : w.ajax[k]? = some (self, request)) :
    Good (_requestCompleted (ajaxDone w k) self err request response) := by
  have hmem : (self, request) ∈ w.ajax := List.getElem?_mem hk
  apply good_shrink w _ hg
  · intro r; exact Request.UpToCancel.refl _
  · exact ⟨hg.queue_nodup, fun r hr => hr⟩
  · rfl
  · intro p hp
    exact (List.eraseIdx_sublist w.ajax k).subset hp
  · intro i
    exact requestCompleted_in_progress (ajaxDone w k) self err request response i
  · intro e he
    have he1 : e ∈ w.effects ++ completionEffects self err request (w.heap request) response :=
      he
    rcases List.mem_append.mp he1 with h | h
    · left; exact h
    · right
      exact ⟨(self, request), hmem, (completionEffects_request self err request _ response e h).symm⟩

theorem good_cancelOwn (w : World) (self : Nat) (hg : Good w) :
    Good (cancelOwnInProgress w self) := by
  apply good_shrink w _ hg
  · exact cancelOwn_stable w self (hg.keys self)
  · exact ⟨hg.queue_nodup, fun r hr => hr⟩
  · rfl
  · intro p hp; exact hp
  · intro i
    by_cases hi : i = self
    · subst hi
      rw [cancelOwn_keys w i (hg.keys i)]
      exact List.filter_sublist _
    · rw [cancelOwn_others w self i hi]
  · intro e he; left; exact he

theorem good_cancelOne (w : World) (self i request : Nat) (hg : Good w)
    (hs : cancelScan w.heap (w.scopes self)._id w._queue (priority_queue.count w._queue) 0
      = Scan.found i request) : Good (cancelQueued w i request) := by
  obtain ⟨s1, -, -⟩ := cancelScan_spec w.heap (w.scopes self)._id w._queue (count w._queue) 0
    (by simp [count])
  have hperm : (request :: (cancelQueued w i request)._queue).Perm w._queue :=
    removeAtIndex_perm_cons _ w._queue i request (s1 i request hs).1
  apply good_shrink w _ hg
  · intro r; exact cancelRequest_stable w.heap request r
  · exact ⟨(List.nodup_cons.mp (hperm.nodup_iff.mpr hg.queue_nodup)).2,
      fun r hr => hperm.mem_iff.mp (List.mem_cons_of_mem _ hr)⟩
  · rfl
  · intro p hp; exact hp
  · intro j; exact List.Sublist.refl _
  · intro e he; left; exact he

theorem good_tagged (w : World) (self guid : Nat) (hg : Good w) :
    Good (taggedRestque w self guid).1 := by
  have hin : ∀ i, ((taggedRestque w self guid).1.scopes i)._requests_in_progress.Sublist
      (w.scopes i)._requests_in_progress := by
    intro i
    by_cases hi : i = w.instances
    · subst hi
      simp [taggedRestque, restque.new]
    · simp [taggedRestque, Function.update_noteq hi]
  apply good_shrink w _ hg
  · intro r; exact Request.UpToCancel.refl _
  · exact ⟨hg.queue_nodup, fun r hr => hr⟩
  · rfl
  · intro p hp; exact hp
  · exact hin
  · intro e he; left; exact he

theorem good_preserved : Preserved Good where
  enqueue := fun w self method url data options done guid hg =>
    good_enqueue w _ hg rfl
  turn := by
    intro w self w1 hg _ h
    obtain ⟨x, q, -, hp, hc | hc⟩ := processTurn_cases w self w1 h
    · rw [hc.2]; exact good_queue_sub w q x hg hp
    · rw [hc.2]; exact good_doRequest w q self x hg hp
  setTimer := fun w self hg => good_update w self _ hg rfl
  elapsed := fun w self hg => good_update w self _ hg rfl
  completed := fun w k self request err response hg hk =>
    good_completed w k self request err response hg hk
  cancelOwn := fun w self hg => good_cancelOwn w self hg
  cancelOne := fun w self i request hg hs => good_cancelOne w self i request hg hs
  tagged := fun w self guid hg => good_tagged w self guid hg

theorem good_init (guid : Nat) : Good (World.init guid) :=
  { queued := fun r hr => by simp [World.init] at hr
    queue_nodup := by simp [World.init]
    outstanding := fun p hp => by simp [World.init] at hp
    in_progress := fun i kv hkv => by simp [World.init, restque.new] at hkv
    reported := fun e he => by simp [World.init] at he
    keys := fun i => by simp [World.init, restque.new] }

theorem good_reachable (guid : Nat) (acts : List Action) (w : World)
    (h : run (World.init guid) acts = some w) : Good w :=
  good_preserved.run acts _ w (good_init guid) h

/-! ## The loops return -/

theorem shouldProcessQueue_nil (w : World) (self : Nat) (h : w._queue = []) :
    _shouldProcessQueue w self = false := by
  simp [_shouldProcessQueue, h, peek]

theorem processTurn_returns (w : World) (self : Nat) (h : _shouldProcessQueue w self = true) :
    ∃ w1, processTurn w self = some w1 := by
  cases hq : w._queue with
  | nil => rw [shouldProcessQueue_nil w self hq] at h; simp at h
  | cons x rest =>
    unfold processTurn
    simp only [hq, (next_cons w.comparer x rest).1]
    exact ⟨_, rfl⟩

theorem processTurn_length (w : World) (self : Nat) (w1 : World)
    (h : processTurn w self = some w1) : w1._queue.length + 1 = w._queue.length := by
  obtain ⟨x, q, -, hp, hc | hc⟩ := processTurn_cases w self w1 h
  · rw [hc.2, ← hp.length_eq]; rfl
  · rw [hc.2, ← hp.length_eq]; rfl

/-- With fuel at least the length of the queue the drain loop returns, and it returns because
its condition is false. -/
theorem processLoop_returns (n : Nat) (w : World) (self : Nat) (h : w._queue.length ≤ n) :
    ∃ w1, processLoop n w self = some w1 ∧ _shouldProcessQueue w1 self = false := by
  induction n generalizing w with
  | zero =>
    have hq : w._queue = [] := List.length_eq_zero.mp (Nat.le_zero.mp h)
    have hs := shouldProcessQueue_nil w self hq
    exact ⟨w, by simp [processLoop, hs], hs⟩
  | succ n ih =>
    cases hs : _shouldProcessQueue w self with
    | false => exact ⟨w, by simp [processLoop, hs], hs⟩
    | true =>
      obtain ⟨w1, hw1⟩ := processTurn_returns w self hs
      have hl := processTurn_length w self w1 hw1
      obtain ⟨w2, hw2, hs2⟩ := ih w1 (by omega)
      exact ⟨w2, by simp [processLoop, hs, hw1, hw2], hs2⟩

theorem processQueue_returns (w : World) (self : Nat) (kicked : Bool) :
    ∃ w1, _processQueue w self kicked = some w1 := by
  obtain ⟨w1, hw1, -⟩ := processLoop_returns w._queue.length w self (Nat.le_refl _)
  refine ⟨if !kicked then _setQueueTimer w1 self else w1, ?_⟩
  simp only [_processQueue, hw1]

theorem queueRequest_returns (w : World) (self : Nat) (method url : String)
    (data : Option String) (options : OptionsArg) (done : Option Nat) (guid : Nat) :
    ∃ w1, _queueRequest w self method url data options done guid = some (w1, guid) := by
  obtain ⟨w1, hw1⟩ := processQueue_returns
    (queueAdd (w.alloc (newRequest w self method url data options done guid)) w.allocated)
    self true
  refine ⟨w1, ?_⟩
  unfold _queueRequest _kickQueue
  simp only [hw1]
  rfl

/-- In a reachable state every action that can happen leads to a state: the loops of
`_processQueue` and `cancel` return. -/
theorem step_returns (guid : Nat) (acts : List Action) (w : World)
    (h : run (World.init guid) acts = some w) (a : Action) (ha : a.enabled w) :
    ∃ w1, step w a = some w1 := by
  cases a with
  | queueRequest self method url data options done g =>
    obtain ⟨w1, hw1⟩ := queueRequest_returns w self method url data options done g
    have ha1 : self < w.instances := ha
    exact ⟨w1, by simp only [step, if_pos ha1, hw1, Option.map_some']⟩
  | processQueue self kicked =>
    obtain ⟨w1, hw1⟩ := processQueue_returns w self kicked
    have ha1 : self < w.instances := ha
    exact ⟨w1, by simp only [step, if_pos ha1, hw1]⟩
  | timerFired self =>
    obtain ⟨w1, hw1⟩ := processQueue_returns (timerElapsed w self) self false
    have ha1 : self < w.instances ∧ (w.scopes self)._processQueueTimer = true := ha
    exact ⟨w1, by simp only [step, if_pos ha1, hw1]⟩
  | requestCompleted k err response =>
    have ha1 : k < w.ajax.length := ha
    cases hk : w.ajax[k]? with
    | none =>
      rw [List.getElem?_eq_getElem ha1] at hk
      simp at hk
    | some p =>
      obtain ⟨self, request⟩ := p
      exact ⟨_requestCompleted (ajaxDone w k) self err request response, by
        simp only [step, hk]⟩
  | cancel self =>
    obtain ⟨w1, hw1, -⟩ := cancel_spec w self ((good_reachable guid acts w h).keys self)
    have ha1 : self < w.instances := ha
    exact ⟨w1, by simp only [step, if_pos ha1, hw1]⟩
  | taggedRestque self g =>
    have ha1 : self < w.instances := ha
    exact ⟨(taggedRestque w self g).1, by simp only [step, if_pos ha1]⟩

/-! ## Cancellation by scope -/

theorem filter_owned_other (heap : Nat → Request) (ida idb : Nat) (hab : ida ≠ idb)
    {β : Type} (f : β → Nat) (l : List β) :
    (l.filter (fun x => !ownedBy heap ida (f x))).filter (fun x => ownedBy heap idb (f x))
      = l.filter (fun x => ownedBy heap idb (f x)) := by
  rw [List.filter_filter]
  apply List.filter_congr
  intro x _
  by_cases h : (heap (f x)).restque_id = idb
  · have : (heap (f x)).restque_id ≠ ida := fun e => hab (e.symm.trans h)
    simp [ownedBy, h, Ne.symm hab]
  · simp [ownedBy, h]

/-- C4: in every reachable state, for instances `a` and `b` with different ids, `cancel()` on
`a` returns, and it leaves every request object whose `restque_id` is `b`'s id exactly as it
was (so `is_cancelled` is not set and `abort()` is not called on its handle), keeps those of
them that were in the shared queue in it (same multiset) and keeps those of them that were in
any instance's `_requests_in_progress` there, in the same order. -/
theorem C4_cancel_leaves_other_scopes (guid : Nat) (acts : List Action) (w : World)
    (h : run (World.init guid) acts = some w) (a b : Nat)
    (hab : (w.scopes a)._id ≠ (w.scopes b)._id) :
    ∃ w1, cancel w a = some w1 ∧
      (∀ r, (w.heap r).restque_id = (w.scopes b)._id → w1.heap r = w.heap r) ∧
      (w1._queue.filter (fun r => ownedBy w.heap (w.scopes b)._id r)).Perm
        (w._queue.filter (fun r => ownedBy w.heap (w.scopes b)._id r)) ∧
      (∀ i, (w1.scopes i)._requests_in_progress.filter
          (fun kv => ownedBy w.heap (w.scopes b)._id kv.2)
        = (w.scopes i)._requests_in_progress.filter
          (fun kv => ownedBy w.heap (w.scopes b)._id kv.2)) := by
  obtain ⟨w1, hw1, post⟩ := cancel_spec w a ((good_reachable guid acts w h).keys a)
  refine ⟨w1, hw1, ?_, ?_, ?_⟩
  · intro r hr
    exact post.heap_frame r (fun e => hab (e.symm.trans hr))
  · have := List.Perm.filter (fun r => ownedBy w.heap (w.scopes b)._id r) post.queue
    rw [filter_owned_other w.heap _ _ hab (fun r => r)] at this
    exact this
  · intro i
    by_cases hi : i = a
    · subst hi
      rw [post.own]
      exact filter_owned_other w.heap _ _ hab (fun kv : Nat × Nat => kv.2) _
    · rw [post.others i hi]

/-- C4 at the state after `sharedTrace`, for `cancel()` on instance 0 and the records
of instance 1. -/
theorem C4_cancel_leaves_other_scopes_witness :
    run (World.init 100) sharedTrace = some (after sharedTrace) ∧
    ((after sharedTrace).scopes 0)._id ≠ ((after sharedTrace).scopes 1)._id ∧
    ∃ w1, cancel (after sharedTrace) 0 = some w1 ∧
      (∀ r, ((after sharedTrace).heap r).restque_id = ((after sharedTrace).scopes 1)._id →
        w1.heap r = (after sharedTrace).heap r) ∧
      (w1._queue.filter
          (fun r => ownedBy (after sharedTrace).heap ((after sharedTrace).scopes 1)._id r)).Perm
        ((after sharedTrace)._queue.filter
          (fun r => ownedBy (after sharedTrace).heap ((after sharedTrace).scopes 1)._id r)) ∧
      (∀ i, (w1.scopes i)._requests_in_progress.filter
          (fun kv => ownedBy (after sharedTrace).heap ((after sharedTrace).scopes 1)._id kv.2)
        = ((after sharedTrace).scopes i)._requests_in_progress.filter
          (fun kv => ownedBy (after sharedTrace).heap ((after sharedTrace).scopes 1)._id kv.2)) :=
  ⟨rfl, by decide,
    C4_cancel_leaves_other_scopes 100 sharedTrace (after sharedTrace) rfl 0 1 (by decide)⟩

theorem never_consequences (r : Nat) (w : World) (hg : Good w) (hn : Never r w) :
    (∀ p ∈ w.ajax, p.2 ≠ r) ∧ (∀ i, r ∉ inFlight w i) ∧ (∀ e ∈ w.effects, e.request ≠ r) := by
  refine ⟨fun p hp e => ?_, fun i hi => ?_, fun e he e1 => ?_⟩
  · exact (hg.outstanding p hp).2 (by rw [e]; exact hn.2.2)
  · obtain ⟨kv, hkv, e⟩ := List.mem_map.mp hi
    exact (hg.in_progress i kv hkv).2 (by rw [e]; exact hn.2.2)
  · exact (hg.reported e he).2 (by rw [e1]; exact hn.2.2)

theorem never_preserved (r : Nat) : Preserved (fun w => Good w ∧ Never r w) where
  enqueue := by
    intro w self method url data options done guid hp
    refine ⟨good_preserved.enqueue w self method url data options done guid hp.1, ?_⟩
    obtain ⟨h1, h2, h3⟩ := hp.2
    have hne : r ≠ w.allocated := Nat.ne_of_lt h1
    refine ⟨Nat.lt_succ_of_lt h1, ?_, ?_⟩
    · intro hm
      rcases List.mem_cons.mp ((add_perm _ _ _).mem_iff.mp hm) with e | e
      · exact hne e
      · exact h2 e
    · simpa [queueAdd, World.alloc, Function.update_noteq hne] using h3
  turn := by
    intro w self w1 hp hs h
    refine ⟨good_preserved.turn w self w1 hp.1 hs h, ?_⟩
    obtain ⟨h1, h2, h3⟩ := hp.2
    obtain ⟨x, q, -, hperm, hc | hc⟩ := processTurn_cases w self w1 h
    · rw [hc.2]
      exact ⟨h1, fun hm => h2 (hperm.mem_iff.mp (List.mem_cons_of_mem _ hm)), h3⟩
    · rw [hc.2]
      have hne : r ≠ x := fun e => h2 (hperm.mem_iff.mp (e ▸ List.mem_cons_self _ _))
      refine ⟨h1, fun hm => h2 (hperm.mem_iff.mp (List.mem_cons_of_mem _ hm)), ?_⟩
      simpa [_doRequest, Function.update_noteq hne] using h3
  setTimer := fun w self hp => ⟨good_preserved.setTimer w self hp.1, hp.2⟩
  elapsed := fun w self hp => ⟨good_preserved.elapsed w self hp.1, hp.2⟩
  completed := fun w k self request err response hp hk =>
    ⟨good_preserved.completed w k self request err response hp.1 hk, hp.2⟩
  cancelOwn := by
    intro w self hp
    refine ⟨good_preserved.cancelOwn w self hp.1, hp.2.1, hp.2.2.1, ?_⟩
    exact (cancelOwn_stable w self (hp.1.keys self) r).2.2.mpr hp.2.2.2
  cancelOne := by
    intro w self i request hp hs
    refine ⟨good_preserved.cancelOne w self i request hp.1 hs, hp.2.1, ?_, ?_⟩
    · obtain ⟨s1, -, -⟩ := cancelScan_spec w.heap (w.scopes self)._id w._queue
        (count w._queue) 0 (by simp [count])
      have hperm : (request :: (cancelQueued w i request)._queue).Perm w._queue :=
        removeAtIndex_perm_cons _ w._queue i request (s1 i request hs).1
      exact fun hm => hp.2.2.1 (hperm.mem_iff.mp (List.mem_cons_of_mem _ hm))
    · exact (cancelRequest_stable w.heap request r).2.2.mpr hp.2.2.2
  tagged := fun w self guid hp => ⟨good_preserved.tagged w self guid hp.1, hp.2⟩

/-- C6: in every reachable state `cancel()` on instance `a` returns; afterwards the shared queue
holds exactly the objects it held whose `restque_id` is not `a`'s id; every object it removed
has `is_cancelled = true`; and in every state that any later actions lead to, such an object
has still never been handed to the transport (no handle, no outstanding call, in no
`_requests_in_progress`), is not back in the queue, and no effect (`done` call or event) was
emitted for it. -/
theorem C6_cancel_removes_queued_for_good (guid : Nat) (acts : List Action) (w : World)
    (h : run (World.init guid) acts = some w) (a : Nat) :
    ∃ w1, cancel w a = some w1 ∧
      (∀ r, r ∈ w1._queue ↔ (r ∈ w._queue ∧ (w.heap r).restque_id ≠ (w.scopes a)._id)) ∧
      (∀ r ∈ w1._queue, (w1.heap r).restque_id ≠ (w.scopes a)._id) ∧
      (∀ r ∈ w._queue, (w.heap r).restque_id = (w.scopes a)._id →
        (w1.heap r).is_cancelled = true ∧
        ∀ later w2, run w1 later = some w2 →
          (w2.heap r).handle = none ∧ r ∉ w2._queue ∧ (∀ p ∈ w2.ajax, p.2 ≠ r) ∧
          (∀ i, r ∉ inFlight w2 i) ∧ (∀ e ∈ w2.effects, e.request ≠ r)) := by
  have hg := good_reachable guid acts w h
  obtain ⟨w1, hw1, post⟩ := cancel_spec w a (hg.keys a)
  have hmem : ∀ r, r ∈ w1._queue ↔
      (r ∈ w._queue ∧ (w.heap r).restque_id ≠ (w.scopes a)._id) := by
    intro r
    rw [post.queue.mem_iff, List.mem_filter]
    simp [ownedBy]
  have hg1 : Good w1 := good_preserved.cancelFuel _ w a w1 hg hw1
  refine ⟨w1, hw1, hmem, ?_, ?_⟩
  · intro r hr
    rw [(post.heap_stable r).restque_id]
    exact ((hmem r).mp hr).2
  · intro r hr ho
    refine ⟨post.queued_cancelled r hr ho, ?_⟩
    intro later w2 hrun
    have hq := hg.queued r hr
    have hn1 : Never r w1 :=
      ⟨by rw [post.allocated]; exact hq.1, fun hm => ((hmem r).mp hm).2 ho,
        (post.heap_stable r).2.2.mpr hq.2⟩
    have := (never_preserved r).run later w1 w2 ⟨hg1, hn1⟩ hrun
    obtain ⟨c1, c2, c3⟩ := never_consequences r w2 this.1 this.2
    exact ⟨this.2.2.2, this.2.2.1, c1, c2, c3⟩

/-- C6 at the state after `sharedTrace`, for `cancel()` on instance 0. -/
theorem C6_cancel_removes_queued_for_good_witness :
    run (World.init 100) sharedTrace = some (after sharedTrace) ∧
    ∃ w1, cancel (after sharedTrace) 0 = some w1 ∧
      (∀ r, r ∈ w1._queue ↔ (r ∈ (after sharedTrace)._queue ∧
        ((after sharedTrace).heap r).restque_id ≠ ((after sharedTrace).scopes 0)._id)) ∧
      (∀ r ∈ w1._queue, (w1.heap r).restque_id ≠ ((after sharedTrace).scopes 0)._id) ∧
      (∀ r ∈ (after sharedTrace)._queue,
        ((after sharedTrace).heap r).restque_id = ((after sharedTrace).scopes 0)._id →
        (w1.heap r).is_cancelled = true ∧
        ∀ later w2, run w1 later = some w2 →
          (w2.heap r).handle = none ∧ r ∉ w2._queue ∧ (∀ p ∈ w2.ajax, p.2 ≠ r) ∧
          (∀ i, r ∉ inFlight w2 i) ∧ (∀ e ∈ w2.effects, e.request ≠ r)) :=
  ⟨rfl, C6_cancel_removes_queued_for_good 100 sharedTrace (after sharedTrace) rfl 0⟩

/-- The state after `sharedTrace`: requests of both instances are in the queue. -/
theorem sharedTrace_state :
    (after sharedTrace)._queue = [2, 5, 6, 7] ∧
    (after sharedTrace).ajax = [(0, 0), (0, 1), (1, 3), (1, 4)] ∧
    ((after sharedTrace)._queue.map (fun r => ((after sharedTrace).heap r).restque_id))
      = [100, 200, 200, 100] := by
  decide

/-! ## What a completion emits -/

/-- C11, as stated, fails: a dispatched record that is not cancelled and has a `done` function
(callback 7) completes with status 401, and `_requestCompleted` emits the event
`authentication_required` and no call of `done`. -/
theorem C11_counterexample :
    ((after [submit 0 1 1]).heap 0).is_cancelled = false ∧
    ((after [submit 0 1 1]).heap 0).done = some 7 ∧
    (_requestCompleted (ajaxDone (after [submit 0 1 1]) 0) 0 none 0
        { status_code := 401, body := "" }).effects
      = [Effect.trigger 0 EventName.authentication_required 0
          { status_code := 401, body := "" }] ∧
    ((_requestCompleted (ajaxDone (after [submit 0 1 1]) 0) 0 none 0
        { status_code := 401, body := "" }).effects.filter Effect.isDone) = [] := by
  decide

/-- C11, as amended: for a record with `is_cancelled = false` whose `done` is a function `fn`,
`_requestCompleted` appends its effects to those so far; when the status code is not 401
(transport error, other non-success status or success alike) exactly one of them is a call of
`done`, with the arguments `(err, request, response)`, made through `apply` on
`request.context` when there is one; when the status code is 401 none of them is. -/
theorem C11_done_called_once_unless_unauthorized (w : World) (self : Nat)
    (err : Option String) (request : Nat) (response : Response) (fn : Nat)
    (hc : (w.heap request).is_cancelled = false) (hd : (w.heap request).done = some fn) :
    (_requestCompleted w self err request response).effects
      = w.effects ++ completionEffects self err request (w.heap request) response ∧
    (response.status_code ≠ 401 →
      (completionEffects self err request (w.heap request) response).filter Effect.isDone
        = [doneCall fn (w.heap request).context err request response]) ∧
    (response.status_code = 401 →
      (completionEffects self err request (w.heap request) response).filter Effect.isDone
        = []) := by
  refine ⟨rfl, fun hs => ?_, fun hs => ?_⟩
  · unfold completionEffects
    simp only [hc, hd, hs, Bool.not_false, Bool.true_and, decide_False, Bool.false_eq_true,
      if_false, if_true]
    rw [List.filter_append]
    have h1 : ∀ b : Bool, List.filter Effect.isDone
        (if b = true then
          [Effect.trigger self EventName.request_failed request response] else []) = [] := by
      intro b
      cases b <;> rfl
    rw [h1]
    cases hctx : (w.heap request).context <;> simp [doneCall, Effect.isDone]
  · unfold completionEffects
    simp [hc, hs, Effect.isDone]

/-- C11, as amended, at a dispatched record with `done` callback 7 and no context: a completion
with status 500 and one with status 401. -/
theorem C11_done_called_once_unless_unauthorized_witness :
    ((after [submit 0 1 1]).heap 0).is_cancelled = false ∧
    ((after [submit 0 1 1]).heap 0).done = some 7 ∧
    (_requestCompleted (after [submit 0 1 1]) 0 none 0 { status_code := 500, body := "" }).effects
      = (after [submit 0 1 1]).effects ++ completionEffects 0 none 0
          ((after [submit 0 1 1]).heap 0) { status_code := 500, body := "" } ∧
    (({ status_code := 500, body := "" } : Response).status_code ≠ 401 →
      (completionEffects 0 none 0 ((after [submit 0 1 1]).heap 0)
          { status_code := 500, body := "" }).filter Effect.isDone
        = [doneCall 7 ((after [submit 0 1 1]).heap 0).context none 0
            { status_code := 500, body := "" }]) ∧
    (({ status_code := 500, body := "" } : Response).status_code = 401 →
      (completionEffects 0 none 0 ((after [submit 0 1 1]).heap 0)
          { status_code := 500, body := "" }).filter Effect.isDone = []) :=
  ⟨by decide, by decide,
    C11_done_called_once_unless_unauthorized (after [submit 0 1 1]) 0 none 0
      { status_code := 500, body := "" } 7 (by decide) (by decide)⟩

/-- C12, as stated, fails: a dispatched record submitted without a `done` callback and without
`quiet`, not cancelled, completes with a transport error and status 500, and
`_requestCompleted` emits nothing: no `request_failed`. -/
theorem C12_counterexample :
    ((after [Action.queueRequest 0 "GET" "/a" none OptionsArg.absent none 1]).heap 0).is_cancelled
      = false ∧
    ((after [Action.queueRequest 0 "GET" "/a" none OptionsArg.absent none 1]).heap 0).quiet
      = false ∧
    ((after [Action.queueRequest 0 "GET" "/a" none OptionsArg.absent none 1]).heap 0).done
      = none ∧
    (_requestCompleted
        (ajaxDone (after [Action.queueRequest 0 "GET" "/a" none OptionsArg.absent none 1]) 0)
        0 (some "error") 0 { status_code := 500, body := "" }).effects = [] := by
  decide

/-- C12, as amended: for a record with `is_cancelled = false` and a completion whose status is
not 401 and which is a non-success (`err` is set, or the status code is neither 200 nor 201),
`_requestCompleted` emits `request_failed` exactly once, with `[request, response]`, when
`done` is a function and `quiet` is false; it does not emit it when `quiet` is true; and it
emits nothing at all when `done` is not a function. -/
theorem C12_failure_announced_with_done_unless_quiet (w : World) (self : Nat)
    (err : Option String) (request : Nat) (response : Response)
    (hc : (w.heap request).is_cancelled = false) (hs : response.status_code ≠ 401)
    (hf : err.isSome = true ∨ (response.status_code ≠ 200 ∧ response.status_code ≠ 201)) :
    (_requestCompleted w self err request response).effects
      = w.effects ++ completionEffects self err request (w.heap request) response ∧
    (∀ fn, (w.heap request).done = some fn → (w.heap request).quiet = false →
      (completionEffects self err request (w.heap request) response).filter Effect.isFailed
        = [Effect.trigger self EventName.request_failed request response]) ∧
    ((w.heap request).quiet = true →
      (completionEffects self err request (w.heap request) response).filter Effect.isFailed
        = []) ∧
    ((w.heap request).done = none →
      completionEffects self err request (w.heap request) response = []) := by
  have hfail : (err.isSome ||
      (decide (response.status_code ≠ 200) && decide (response.status_code ≠ 201))) = true := by
    rcases hf with h | ⟨h1, h2⟩
    · simp [h]
    · simp [h1, h2]
  refine ⟨rfl, fun fn hd hq => ?_, fun hq => ?_, fun hd => ?_⟩
  · unfold completionEffects
    simp only [hc, hd, hs, hq, hfail, Bool.not_false, Bool.true_and, decide_False,
      Bool.false_eq_true, if_false, if_true]
    cases hctx : (w.heap request).context <;> simp [Effect.isFailed]
  · unfold completionEffects
    simp only [hc, hs, hq, Bool.not_false, Bool.true_and, decide_False, Bool.false_eq_true,
      if_false, Bool.not_true, Bool.false_and]
    cases hd : (w.heap request).done with
    | none => simp
    | some fn =>
      cases hctx : (w.heap request).context <;> simp [Effect.isFailed]
  · unfold completionEffects
    simp [hc, hs, hd]

/-- C12, as amended, at a dispatched record with `done` callback 7 and `quiet` unset, completing
with a transport error and status 500. -/
theorem C12_failure_announced_with_done_unless_quiet_witness :
    ((after [submit 0 1 1]).heap 0).is_cancelled = false ∧
    ({ status_code := 500, body := "" } : Response).status_code ≠ 401 ∧
    (_requestCompleted (after [submit 0 1 1]) 0 (some "error") 0
        { status_code := 500, body := "" }).effects
      = (after [submit 0 1 1]).effects ++ completionEffects 0 (some "error") 0
          ((after [submit 0 1 1]).heap 0) { status_code := 500, body := "" } ∧
    (∀ fn, ((after [submit 0 1 1]).heap 0).done = some fn →
      ((after [submit 0 1 1]).heap 0).quiet = false →
      (completionEffects 0 (some "error") 0 ((after [submit 0 1 1]).heap 0)
          { status_code := 500, body := "" }).filter Effect.isFailed
        = [Effect.trigger 0 EventName.request_failed 0 { status_code := 500, body := "" }]) ∧
    (((after [submit 0 1 1]).heap 0).quiet = true →
      (completionEffects 0 (some "error") 0 ((after [submit 0 1 1]).heap 0)
          { status_code := 500, body := "" }).filter Effect.isFailed = []) ∧
    (((after [submit 0 1 1]).heap 0).done = none →
      completionEffects 0 (some "error") 0 ((after [submit 0 1 1]).heap 0)
        { status_code := 500, body := "" } = []) :=
  ⟨by decide, by decide,
    C12_failure_announced_with_done_unless_quiet (after [submit 0 1 1]) 0 (some "error") 0
      { status_code := 500, body := "" } (by decide) (by decide) (Or.inl rfl)⟩

/-! ## Submissions: priority and returned value -/

/-- The priority of the request object that `_queueRequest` builds: a priority other than 0 is
taken as it is; without options, with a callback in their place or without a priority in
them it is 1. -/
theorem newRequest_priority (w : World) (self : Nat) (method url : String)
    (data : Option String) (done : Option Nat) (guid : Nat) (p : Int) (c t : Option Nat)
    (q : Option Bool) (f : Nat) :
    (p ≠ 0 → (newRequest w self method url data (OptionsArg.object (some p) c t q) done
      guid).priority = p) ∧
    (newRequest w self method url data (OptionsArg.object none c t q) done guid).priority = 1 ∧
    (newRequest w self method url data OptionsArg.absent done guid).priority = 1 ∧
    (newRequest w self method url data (OptionsArg.callback f) done guid).priority = 1 := by
  refine ⟨fun hp => ?_, rfl, rfl, rfl⟩
  simp [newRequest, OptionsArg.priority, hp]

/-- C13, on the code: a submission through `_queueRequest` with `options.priority = 0` makes a
record whose priority is 1, as `options.priority || 1` takes the falsy 0 for a missing
priority; a submission with priority -1 makes a record of priority -1, which thereby ranks
below the one submitted with 0. -/
theorem C13_priority_zero_becomes_one :
    run (World.init 100) [submit 0 0 1, submit 0 (-1) 2]
      = some (after [submit 0 0 1, submit 0 (-1) 2]) ∧
    ((after [submit 0 0 1, submit 0 (-1) 2]).heap 0).priority = 1 ∧
    ((after [submit 0 0 1, submit 0 (-1) 2]).heap 1).priority = -1 ∧
    ∀ (w : World) (self : Nat) (method url : String) (data : Option String)
      (done : Option Nat) (guid : Nat) (c t : Option Nat) (q : Option Bool),
      (newRequest w self method url data (OptionsArg.object (some 0) c t q) done guid).priority
        = 1 :=
  ⟨rfl, by decide, by decide, fun _ _ _ _ _ _ _ _ _ _ => rfl⟩

/-- C14, on the code: each of `get`, `post`, `put` and `delete_` leaves the state that
`_queueRequest` leaves (one record added and the queue kicked), and where `_queueRequest`
returns the record's id the method returns `undefined`. -/
theorem C14_submission_methods_return_undefined (w : World) (self : Nat) (url : String)
    (data : Option String) (options : OptionsArg) (done : Option Nat) (guid : Nat) :
    (∃ w1, _queueRequest w self "GET" url none options done guid = some (w1, guid) ∧
      get w self url options done guid = some (w1, none)) ∧
    (∃ w1, _queueRequest w self "POST" url data options done guid = some (w1, guid) ∧
      post w self url data options done guid = some (w1, none)) ∧
    (∃ w1, _queueRequest w self "PUT" url data options done guid = some (w1, guid) ∧
      put w self url data options done guid = some (w1, none)) ∧
    (∃ w1, _queueRequest w self "DELETE" url none options done guid = some (w1, guid) ∧
      delete_ w self url options done guid = some (w1, none)) := by
  refine ⟨?_, ?_, ?_, ?_⟩
  · obtain ⟨w1, h⟩ := queueRequest_returns w self "GET" url none options done guid
    exact ⟨w1, h, by simp [get, h]⟩
  · obtain ⟨w1, h⟩ := queueRequest_returns w self "POST" url data options done guid
    exact ⟨w1, h, by simp [post, h]⟩
  · obtain ⟨w1, h⟩ := queueRequest_returns w self "PUT" url data options done guid
    exact ⟨w1, h, by simp [put, h]⟩
  · obtain ⟨w1, h⟩ := queueRequest_returns w self "DELETE" url none options done guid
    exact ⟨w1, h, by simp [delete_, h]⟩

/-! ## The priority queue at its edges -/

/-- C15, on the code: on a queue of two objects `removeAtIndex(2)`, whose index equals
`count()`, removes the last object and leaves a queue of one, whatever the comparer. -/
theorem C15_removeAtIndex_at_count_pops {α : Type} (comparer : α → α → Int) (a b : α) :
    ((count [a, b] : Nat) : Int) = 2 ∧
    removeAtIndex comparer [a, b] 2 = [a] ∧
    count (removeAtIndex comparer [a, b] 2) = 1 := by
  have h := removeAtIndex_length comparer [a, b]
  simp only [List.length_cons, List.length_nil, List.dropLast_cons₂, List.dropLast_single]
    at h
  have h2 : removeAtIndex comparer [a, b] 2 = [a] := h
  exact ⟨rfl, h2, by rw [h2]; rfl⟩

/-- C18: three records of priority 1 are added in the order 0, 1, 2 to an empty queue under
`_requestPriorityComparer`; the array then holds them in that order, and three calls of
`next()` return them in the order 0, 2, 1. -/
theorem C18_ties_leave_in_another_order :
    (∀ i, (tie i).priority = 1) ∧
    addAll (comparerOn tie) [] [0, 1, 2] = [0, 1, 2] ∧
    (nextTimes (comparerOn tie) 3 (addAll (comparerOn tie) [] [0, 1, 2])).1
      = [some 0, some 2, some 1] ∧
    (nextTimes (comparerOn tie) 3 (addAll (comparerOn tie) [] [0, 1, 2])).1
      ≠ [some 0, some 1, some 2] := by
  refine ⟨fun _ => rfl, by decide, by decide, by decide⟩

/-! ## Each request object in one place -/

theorem objSet_values (m : List (Nat × Nat)) (k v : Nat) (hv : v ∉ m.map Prod.snd)
    (hn : (m.map Prod.snd).Nodup) :
    ((objSet m k v).map Prod.snd).Nodup ∧
    ∀ r, r ∈ (objSet m k v).map Prod.snd → r ∈ m.map Prod.snd ∨ r = v := by
  induction m with
  | nil => simp [objSet]
  | cons e rest ih =>
    obtain ⟨k1, v1⟩ := e
    simp only [List.map_cons, List.mem_cons, not_or] at hv
    simp only [List.map_cons, List.nodup_cons] at hn
    simp only [objSet]
    split
    · simp only [List.map_cons, List.nodup_cons, List.mem_cons]
      exact ⟨⟨hv.2, hn.2⟩, fun r hr => by
        rcases hr with e | e
        · right; exact e
        · left; right; exact e⟩
    · obtain ⟨ih1, ih2⟩ := ih hv.2 hn.2
      simp only [List.map_cons, List.nodup_cons, List.mem_cons]
      refine ⟨⟨fun hm => ?_, ih1⟩, fun r hr => ?_⟩
      · rcases ih2 v1 hm with e | e
        · exact hn.1 e
        · exact hv.1 e.symm
      · rcases hr with e | e
        · left; left; exact e
        · rcases ih2 r e with e1 | e1
          · left; right; exact e1
          · right; exact e1

/-- A state change that only takes entries out of the maps keeps them apart. -/
theorem apart_shrink (w w1 : World) (ha : Apart w)
    (hin : ∀ i, ((w1.scopes i)._requests_in_progress).Sublist
      (w.scopes i)._requests_in_progress) : Apart w1 := by
  have hsub : ∀ i, (inFlight w1 i).Sublist (inFlight w i) :=
    fun i => List.Sublist.map _ (hin i)
  refine ⟨fun i j hij r hr hr2 => ?_, fun i => List.Nodup.sublist (hsub i) (ha.2 i)⟩
  exact ha.1 i j hij r ((hsub i).subset hr) ((hsub j).subset hr2)

theorem apart_same (w w1 : World) (ha : Apart w)
    (hin : ∀ i, (w1.scopes i)._requests_in_progress = (w.scopes i)._requests_in_progress) :
    Apart w1 :=
  apart_shrink w w1 ha (fun i => by rw [hin i])

theorem update_in_progress (w : World) (self : Nat) (s : restque)
    (hs : s._requests_in_progress = (w.scopes self)._requests_in_progress) (i : Nat) :
    (Function.update w.scopes self s i)._requests_in_progress
      = (w.scopes i)._requests_in_progress := by
  by_cases hi : i = self
  · subst hi; simpa using hs
  · simp [Function.update_noteq hi]

theorem cancelOwn_in_progress (w : World) (self : Nat) (hg : Good w) (i : Nat) :
    ((cancelOwnInProgress w self).scopes i)._requests_in_progress.Sublist
      (w.scopes i)._requests_in_progress := by
  by_cases hi : i = self
  · subst hi
    rw [cancelOwn_keys w i (hg.keys i)]
    exact List.filter_sublist _
  · rw [cancelOwn_others w self i hi]

theorem tagged_in_progress (w : World) (self guid : Nat) (i : Nat) :
    ((taggedRestque w self guid).1.scopes i)._requests_in_progress.Sublist
      (w.scopes i)._requests_in_progress := by
  by_cases hi : i = w.instances
  · subst hi
    simp [taggedRestque, restque.new]
  · simp [taggedRestque, Function.update_noteq hi]

theorem apart_doRequest (w : World) (q : List Nat) (self x : Nat) (hg : Good w)
    (ha : Apart w) (hx : x ∈ w._queue) : Apart (_doRequest { w with _queue := q } self x) := by
  have hxn : ∀ j, x ∉ inFlight w j := by
    intro j hj
    obtain ⟨kv, hkv, e⟩ := List.mem_map.mp hj
    exact (hg.in_progress j kv hkv).2 (by rw [e]; exact (hg.queued x hx).2)
  have hself : inFlight (_doRequest { w with _queue := q } self x) self
      = (objSet (w.scopes self)._requests_in_progress (w.heap x).id x).map Prod.snd := by
    simp [inFlight, _doRequest]
  have hother : ∀ j, j ≠ self →
      inFlight (_doRequest { w with _queue := q } self x) j = inFlight w j := by
    intro j hj
    simp [inFlight, _doRequest, Function.update_noteq hj]
  obtain ⟨v1, v2⟩ := objSet_values (w.scopes self)._requests_in_progress (w.heap x).id x
    (hxn self) (ha.2 self)
  refine ⟨fun i j hij r hr hr2 => ?_, fun i => ?_⟩
  · by_cases hi : i = self
    · subst hi
      rw [hself] at hr
      rw [hother j (Ne.symm hij)] at hr2
      rcases v2 r hr with e | e
      · exact ha.1 i j hij r e hr2
      · subst e; exact hxn j hr2
    · rw [hother i hi] at hr
      by_cases hj : j = self
      · subst hj
        rw [hself] at hr2
        rcases v2 r hr2 with e | e
        · exact ha.1 i j hij r hr e
        · subst e; exact hxn i hr
      · rw [hother j hj] at hr2
        exact ha.1 i j hij r hr hr2
  · by_cases hi : i = self
    · subst hi; rw [hself]; exact v1
    · rw [hother i hi]; exact ha.2 i

theorem apart_preserved : Preserved (fun w => Good w ∧ Apart w) where
  enqueue := fun w self method url data options done guid hp =>
    ⟨good_preserved.enqueue w self method url data options done guid hp.1,
      apart_same w _ hp.2 (fun _ => rfl)⟩
  turn := by
    intro w self w1 hp hs h
    refine ⟨good_preserved.turn w self w1 hp.1 hs h, ?_⟩
    obtain ⟨x, q, -, hperm, hc | hc⟩ := processTurn_cases w self w1 h
    · rw [hc.2]; exact apart_same w _ hp.2 (fun _ => rfl)
    · rw [hc.2]
      exact apart_doRequest w q self x hp.1 hp.2 (hperm.mem_iff.mp (List.mem_cons_self _ _))
  setTimer := fun w self hp =>
    ⟨good_preserved.setTimer w self hp.1,
      apart_same w _ hp.2 (fun i =>
        update_in_progress w self { w.scopes self with _processQueueTimer := true } rfl i)⟩
  elapsed := fun w self hp =>
    ⟨good_preserved.elapsed w self hp.1,
      apart_same w _ hp.2 (fun i =>
        update_in_progress w self { w.scopes self with _processQueueTimer := false } rfl i)⟩
  completed := fun w k self request err response hp hk =>
    ⟨good_preserved.completed w k self request err response hp.1 hk,
      apart_shrink w _ hp.2
        (fun i => requestCompleted_in_progress (ajaxDone w k) self err request response i)⟩
  cancelOwn := fun w self hp =>
    ⟨good_preserved.cancelOwn w self hp.1,
      apart_shrink w _ hp.2 (fun i => cancelOwn_in_progress w self hp.1 i)⟩
  cancelOne := fun w self i request hp hs =>
    ⟨good_preserved.cancelOne w self i request hp.1 hs, apart_same w _ hp.2 (fun _ => rfl)⟩
  tagged := fun w self guid hp =>
    ⟨good_preserved.tagged w self guid hp.1,
      apart_shrink w _ hp.2 (fun i => tagged_in_progress w self guid i)⟩

theorem apart_init (guid : Nat) : Apart (World.init guid) :=
  ⟨fun i j _ r hr => by simp [inFlight, World.init, restque.new] at hr,
    fun i => by simp [inFlight, World.init, restque.new]⟩

/-- C16: in every reachable state no request object is both in the shared queue and in an
instance's `_requests_in_progress`, none is in the maps of two instances, none occurs twice in
the queue, and none occurs twice in one map. No assumption on the generated ids is needed. -/
theorem C16_each_record_in_one_place (guid : Nat) (acts : List Action) (w : World)
    (h : run (World.init guid) acts = some w) :
    (∀ r ∈ w._queue, ∀ i, r ∉ inFlight w i) ∧
    (∀ i j, i ≠ j → ∀ r, r ∈ inFlight w i → r ∉ inFlight w j) ∧
    w._queue.Nodup ∧
    (∀ i, (inFlight w i).Nodup) := by
  obtain ⟨hg, ha⟩ := apart_preserved.run acts _ w ⟨good_init guid, apart_init guid⟩ h
  refine ⟨fun r hr i hi => ?_, ha.1, hg.queue_nodup, ha.2⟩
  obtain ⟨kv, hkv, e⟩ := List.mem_map.mp hi
  exact (hg.in_progress i kv hkv).2 (by rw [e]; exact (hg.queued r hr).2)

/-- C16 at the state after `sharedTrace`. -/
theorem C16_each_record_in_one_place_witness :
    run (World.init 100) sharedTrace = some (after sharedTrace) ∧
    (∀ r ∈ (after sharedTrace)._queue, ∀ i, r ∉ inFlight (after sharedTrace) i) ∧
    (∀ i j, i ≠ j → ∀ r, r ∈ inFlight (after sharedTrace) i →
      r ∉ inFlight (after sharedTrace) j) ∧
    (after sharedTrace)._queue.Nodup ∧
    (∀ i, (inFlight (after sharedTrace) i).Nodup) :=
  ⟨rfl, C16_each_record_in_one_place 100 sharedTrace (after sharedTrace) rfl⟩

/-! ## The recursion of `cancel` -/

theorem cancelInProgress_stable (id : Nat) (keys : List Nat)
    (st : (Nat → Request) × List (Nat × Nat) × Int) (r : Nat) :
    (st.1 r).UpToCancel ((cancelInProgress id keys st).1 r) := by
  induction keys generalizing st with
  | nil => simp only [cancelInProgress]; exact Request.UpToCancel.refl _
  | cons key keys ih =>
    obtain ⟨heap, in_progress, count⟩ := st
    simp only [cancelInProgress]
    split
    · exact ih _
    · rename_i request _
      split
      · exact (cancelRequest_stable heap request r).trans
          (ih (_cancelRequest heap request, objDelete in_progress key, count - 1))
      · exact ih _

theorem cancelOwn_stable_any (w : World) (self r : Nat) :
    (w.heap r).UpToCancel ((cancelOwnInProgress w self).heap r) :=
  cancelInProgress_stable (w.scopes self)._id _
    (w.heap, (w.scopes self)._requests_in_progress, (w.scopes self)._requests_in_progress_count)
    r

/-- The state that `cancelCalls` returns is the one `cancelFuel` returns. -/
theorem cancelCalls_state (n : Nat) (w : World) (self : Nat) :
    (cancelCalls n w self).map Prod.fst = cancelFuel n w self := by
  induction n generalizing w with
  | zero => rfl
  | succ n ih =>
    simp only [cancelCalls, cancelFuel]
    split
    · rfl
    · rfl
    · rename_i i request _
      rw [← ih (cancelQueued (cancelOwnInProgress w self) i request)]
      cases cancelCalls n (cancelQueued (cancelOwnInProgress w self) i request) self <;> rfl

/-- With fuel above the length of the queue, in any state: `cancel()` returns; it ran once more
than there were records of the scope in the queue, each further call after the removal of one
record; and no record of the scope is left in the queue. -/
theorem cancelCalls_spec (n : Nat) (w : World) (self : Nat) (hn : w._queue.length < n) :
    ∃ w1 k, cancelCalls n w self = some (w1, k) ∧
      k = (w._queue.filter (fun r => ownedBy w.heap (w.scopes self)._id r)).length + 1 ∧
      w1._queue.length + (k - 1) = w._queue.length ∧
      (w1.scopes self)._id = (w.scopes self)._id ∧
      (∀ r, (w.heap r).UpToCancel (w1.heap r)) ∧
      ∀ r ∈ w1._queue, (w1.heap r).restque_id ≠ (w.scopes self)._id := by
  induction n generalizing w with
  | zero => omega
  | succ n ih =>
    have hst := cancelOwn_stable_any w self
    have hid := cancelOwn_id w self
    have hq : (cancelOwnInProgress w self)._queue = w._queue := rfl
    obtain ⟨s1, s2, s3⟩ := cancelScan_spec (cancelOwnInProgress w self).heap
      ((cancelOwnInProgress w self).scopes self)._id (cancelOwnInProgress w self)._queue
      (count (cancelOwnInProgress w self)._queue) 0 (by simp [count])
    simp only [cancelCalls]
    cases hscan : cancelScan (cancelOwnInProgress w self).heap
        ((cancelOwnInProgress w self).scopes self)._id (cancelOwnInProgress w self)._queue
        (count (cancelOwnInProgress w self)._queue) 0 with
    | typeError => exact absurd hscan s3
    | absent =>
      have hall : ∀ r ∈ w._queue,
          ((cancelOwnInProgress w self).heap r).restque_id ≠ (w.scopes self)._id := by
        intro r hr
        have := s2 hscan r (by simpa [hq] using hr)
        rwa [hid] at this
      refine ⟨_, 1, rfl, ?_, by simp [hq], hid, hst, hall⟩
      rw [List.filter_eq_nil_iff.mpr]
      · rfl
      · intro r hr
        have := hall r hr
        rw [(hst r).restque_id] at this
        simpa [ownedBy] using this
    | found i request =>
      obtain ⟨hget, hreq⟩ := s1 i request hscan
      rw [hq] at hget
      rw [hid] at hreq
      have hperm : (request :: (cancelQueued (cancelOwnInProgress w self) i request)._queue).Perm
          w._queue := removeAtIndex_perm_cons _ w._queue i request hget
      have hlen := hperm.length_eq
      simp only [List.length_cons] at hlen
      have hsc : (cancelQueued (cancelOwnInProgress w self) i request).scopes
          = (cancelOwnInProgress w self).scopes := rfl
      have hid2 : ((cancelQueued (cancelOwnInProgress w self) i request).scopes self)._id
          = (w.scopes self)._id := by rw [hsc, hid]
      have hst2 : ∀ r, (w.heap r).UpToCancel
          ((cancelQueued (cancelOwnInProgress w self) i request).heap r) :=
        fun r => (hst r).trans (cancelRequest_stable _ request r)
      obtain ⟨w1, k, hk, hcount, hlen1, hid1, hst1, hfin⟩ :=
        ih (cancelQueued (cancelOwnInProgress w self) i request) (by omega)
      have hreq0 : (w.heap request).restque_id = (w.scopes self)._id := by
        rw [← (hst request).restque_id]; exact hreq
      refine ⟨w1, k + 1, by simp only [hk], ?_, by omega, by rw [hid1, hid2],
        fun r => (hst2 r).trans (hst1 r), fun r hr => by rw [← hid2]; exact hfin r hr⟩
      rw [hcount, hid2, ownedBy_stable _ _ _ hst2]
      have := (List.Perm.filter (fun r => ownedBy w.heap (w.scopes self)._id r) hperm).length_eq
      rw [List.filter_cons] at this
      have ho : ownedBy w.heap (w.scopes self)._id request = true := by
        simp [ownedBy, hreq0]
      simp only [ho, if_true, List.length_cons] at this
      omega

/-- C19: in every state `cancel()` on any instance terminates. The number of times the method
runs, the first call included, is the number of the scope's records in the queue plus one (so
the recursive calls are as many as those records); each recursive call follows the removal of
one record, the queue being shorter by their number at the end; and the last call finds no
record of the scope in the queue. -/
theorem C19_cancel_terminates (w : World) (self : Nat) :
    ∃ w1 k, cancel w self = some w1 ∧
      cancelCalls (w._queue.length + 1) w self = some (w1, k) ∧
      k = (w._queue.filter (fun r => ownedBy w.heap (w.scopes self)._id r)).length + 1 ∧
      w1._queue.length + (k - 1) = w._queue.length ∧
      (∀ r ∈ w1._queue, (w1.heap r).restque_id ≠ (w1.scopes self)._id) ∧
      cancelScan w1.heap (w1.scopes self)._id w1._queue (count w1._queue) 0 = Scan.absent := by
  obtain ⟨w1, k, hk, hcount, hlen, hid, -, hfin⟩ :=
    cancelCalls_spec (w._queue.length + 1) w self (Nat.lt_succ_self _)
  have hc : cancel w self = some w1 := by
    unfold cancel
    rw [← cancelCalls_state, hk]
    rfl
  have hfin1 : ∀ r ∈ w1._queue, (w1.heap r).restque_id ≠ (w1.scopes self)._id := by
    intro r hr
    rw [hid]
    exact hfin r hr
  refine ⟨w1, k, hc, hk, hcount, hlen, hfin1, ?_⟩
  obtain ⟨s1, -, s3⟩ := cancelScan_spec w1.heap (w1.scopes self)._id w1._queue
    (count w1._queue) 0 (by simp [count])
  cases hscan : cancelScan w1.heap (w1.scopes self)._id w1._queue (count w1._queue) 0 with
  | typeError => exact absurd hscan s3
  | absent => rfl
  | found i request =>
    obtain ⟨hget, hreq⟩ := s1 i request hscan
    exact absurd hreq (hfin1 request (List.getElem?_mem hget))

/-! ## The public surface: no timer is ever set -/

theorem publicStep_eq_step (w : World) (c : PublicCall) :
    publicStep w c = step w c.toAction := by
  cases c with
  | get self url options done guid =>
    simp only [publicStep, PublicCall.toAction, step, get, Option.map_map]
    rfl
  | post self url data options done guid =>
    simp only [publicStep, PublicCall.toAction, step, post, Option.map_map]
    rfl
  | put self url data options done guid =>
    simp only [publicStep, PublicCall.toAction, step, put, Option.map_map]
    rfl
  | delete_ self url options done guid =>
    simp only [publicStep, PublicCall.toAction, step, delete_, Option.map_map]
    rfl
  | cancel self => rfl
  | taggedRestque self guid => rfl
  | completed k err response => rfl

theorem publicRun_eq_run (calls : List PublicCall) (w : World) :
    publicRun w calls = run w (calls.map PublicCall.toAction) := by
  induction calls generalizing w with
  | nil => rfl
  | cons c rest ih =>
    simp only [publicRun, List.map_cons, run, publicStep_eq_step]
    cases step w c.toAction with
    | none => rfl
    | some w1 => exact ih w1

/-- The drain loop keeps what each of its turns keeps. -/
theorem processLoop_keeps (P : World → Prop) (self : Nat)
    (hturn : ∀ w w1, P w → processTurn w self = some w1 → P w1) (n : Nat) (w w1 : World)
    (h0 : P w) (h : processLoop n w self = some w1) : P w1 := by
  induction n generalizing w with
  | zero =>
    simp only [processLoop] at h
    split at h
    · simp at h
    · simp at h; subst h; exact h0
  | succ n ih =>
    simp only [processLoop] at h
    split at h
    · split at h
      · simp at h
      · rename_i w2 hw2
        exact ih w2 (hturn w w2 h0 hw2) h
    · simp at h; subst h; exact h0

/-- The recursion of `cancel` keeps what its two loops keep. -/
theorem cancelFuel_keeps (P : World → Prop) (self : Nat)
    (hown : ∀ w, P w → P (cancelOwnInProgress w self))
    (hone : ∀ w i request, P w → P (cancelQueued w i request)) (n : Nat) (w w1 : World)
    (h0 : P w) (h : cancelFuel n w self = some w1) : P w1 := by
  induction n generalizing w with
  | zero => simp [cancelFuel] at h
  | succ n ih =>
    simp only [cancelFuel] at h
    split at h
    · simp at h
    · simp at h; subst h; exact hown w h0
    · rename_i i request _
      exact ih _ (hone _ i request (hown w h0)) h

theorem unarmed_turn (self : Nat) (w w1 : World) (hu : Unarmed w)
    (h : processTurn w self = some w1) : Unarmed w1 := by
  obtain ⟨x, q, -, -, hc | hc⟩ := processTurn_cases w self w1 h
  · rw [hc.2]; exact hu
  · rw [hc.2]
    intro i
    by_cases hi : i = self
    · subst hi; simpa [_doRequest] using hu i
    · simpa [_doRequest, Function.update_noteq hi] using hu i

theorem unarmed_kick (w : World) (self : Nat) (w1 : World) (hu : Unarmed w)
    (h : _processQueue w self true = some w1) : Unarmed w1 := by
  unfold _processQueue at h
  split at h
  · simp at h
  · rename_i w2 hw2
    simp at h
    subst h
    exact processLoop_keeps Unarmed self (unarmed_turn self) _ w w2 hu hw2

theorem unarmed_queueRequest (w : World) (self : Nat) (method url : String)
    (data : Option String) (options : OptionsArg) (done : Option Nat) (guid : Nat)
    (res : World × Nat) (hu : Unarmed w)
    (h : _queueRequest w self method url data options done guid = some res) :
    Unarmed res.1 := by
  unfold _queueRequest at h
  simp only at h
  split at h
  · simp at h
  · rename_i w2 hw2
    simp at h
    subst h
    exact unarmed_kick
      (queueAdd (w.alloc (newRequest w self method url data options done guid)) w.allocated)
      self w2 (fun i => hu i) hw2

theorem unarmed_cancel (w : World) (self : Nat) (w1 : World) (hu : Unarmed w)
    (h : cancel w self = some w1) : Unarmed w1 := by
  refine cancelFuel_keeps Unarmed self (fun w0 h0 i => ?_) (fun w0 i request h0 => h0) _ w w1
    hu h
  by_cases hi : i = self
  · subst hi; simpa [cancelOwnInProgress] using h0 i
  · simpa [cancelOwnInProgress, Function.update_noteq hi] using h0 i

theorem unarmed_action (w : World) (c : PublicCall) (w1 : World) (hu : Unarmed w)
    (h : step w c.toAction = some w1) : Unarmed w1 := by
  have hq : ∀ self method url data options done guid,
      step w (Action.queueRequest self method url data options done guid) = some w1 →
      Unarmed w1 := by
    intro self method url data options done guid h
    simp only [step] at h
    split at h
    · cases hq : _queueRequest w self method url data options done guid with
      | none => simp [hq] at h
      | some res =>
        simp [hq] at h
        subst h
        exact unarmed_queueRequest w self method url data options done guid res hu hq
    · simp at h
  cases c with
  | get self url options done guid => exact hq _ _ _ _ _ _ _ h
  | post self url data options done guid => exact hq _ _ _ _ _ _ _ h
  | put self url data options done guid => exact hq _ _ _ _ _ _ _ h
  | delete_ self url options done guid => exact hq _ _ _ _ _ _ _ h
  | cancel self =>
    simp only [PublicCall.toAction, step] at h
    split at h
    · exact unarmed_cancel w self w1 hu h
    · simp at h
  | taggedRestque self guid =>
    simp only [PublicCall.toAction, step] at h
    split at h
    · simp at h
      subst h
      intro i
      by_cases hi : i = w.instances
      · subst hi; simp [taggedRestque, restque.new]
      · simpa [taggedRestque, Function.update_noteq hi] using hu i
    · simp at h
  | completed k err response =>
    simp only [PublicCall.toAction, step] at h
    split at h
    · rename_i self request _
      simp at h
      subst h
      intro i
      by_cases hi : i = self
      · subst hi; simpa [_requestCompleted, ajaxDone] using hu i
      · simpa [_requestCompleted, ajaxDone, Function.update_noteq hi] using hu i
    · simp at h

theorem unarmed_publicRun (calls : List PublicCall) (w w1 : World) (hu : Unarmed w)
    (h : publicRun w calls = some w1) : Unarmed w1 := by
  induction calls generalizing w with
  | nil => simp [publicRun] at h; subst h; exact hu
  | cons c rest ih =>
    simp only [publicRun] at h
    split at h
    · simp at h
    · rename_i w2 hw2
      rw [publicStep_eq_step] at hw2
      exact ih w2 (unarmed_action w c w2 hu hw2) h

/-- A call that is not a submission hands no queued request to the transport. -/
theorem only_submissions_dispatch (w : World) (hg : Good w) (c : PublicCall) (w1 : World)
    (h : publicStep w c = some w1) (hc : c.isSubmission = false) (r : Nat)
    (hr : r ∈ w._queue) : (w1.heap r).handle = none := by
  have h0 := (hg.queued r hr).2
  cases c with
  | get self url options done guid => simp [PublicCall.isSubmission] at hc
  | post self url data options done guid => simp [PublicCall.isSubmission] at hc
  | put self url data options done guid => simp [PublicCall.isSubmission] at hc
  | delete_ self url options done guid => simp [PublicCall.isSubmission] at hc
  | cancel self =>
    simp only [publicStep] at h
    split at h
    · obtain ⟨w2, hw2, post⟩ := cancel_spec w self (hg.keys self)
      rw [hw2] at h
      simp at h
      subst h
      exact (post.heap_stable r).2.2.mpr h0
    · simp at h
  | taggedRestque self guid =>
    simp only [publicStep] at h
    split at h
    · simp at h
      subst h
      exact h0
    · simp at h
  | completed k err response =>
    simp only [publicStep] at h
    split at h
    · simp at h
      subst h
      exact h0
    · simp at h

/-- C20: in every state reached from the initial one through `get`, `post`, `put`, `delete_`,
`cancel`, `taggedRestque` and transport completions, no instance has a timeout pending, so no
timer can fire; a completion leaves the queue and every request object as they are and makes
no call outstanding; and a call after which a request that was queued has a handle is one of
the four submission methods. -/
theorem C20_no_timer_is_ever_armed (guid : Nat) (calls : List PublicCall) (w : World)
    (h : publicRun (World.init guid) calls = some w) :
    (∀ i, (w.scopes i)._processQueueTimer = false) ∧
    (∀ i, step w (Action.timerFired i) = none) ∧
    (∀ k err response w1, publicStep w (PublicCall.completed k err response) = some w1 →
      w1._queue = w._queue ∧ w1.heap = w.heap ∧ w1.ajax = w.ajax.eraseIdx k) ∧
    (∀ c w1 r, publicStep w c = some w1 → r ∈ w._queue → (w1.heap r).handle ≠ none →
      c.isSubmission = true) := by
  have hu : Unarmed w :=
    unarmed_publicRun calls _ w (fun i => by simp [World.init, restque.new]) h
  have hg : Good w := by
    rw [publicRun_eq_run] at h
    exact good_reachable guid _ w h
  refine ⟨hu, fun i => ?_, fun k err response w1 h1 => ?_, fun c w1 r h1 hr hh => ?_⟩
  · simp [step, hu i]
  · simp only [publicStep] at h1
    split at h1
    · simp at h1
      subst h1
      exact ⟨rfl, rfl, rfl⟩
    · simp at h1
  · cases hc : c.isSubmission with
    | true => rfl
    | false => exact absurd (only_submissions_dispatch w hg c w1 h1 hc r hr) hh

/-- C20 at the state after the first five calls of `publicTrace`: a completion has freed a slot
of the first instance and its third request is still queued. -/
theorem C20_no_timer_is_ever_armed_witness :
    publicRun (World.init 100) (publicTrace.take 5) = some (afterPublic (publicTrace.take 5)) ∧
    (afterPublic (publicTrace.take 5))._queue = [2] ∧
    ((afterPublic (publicTrace.take 5)).scopes 0)._requests_in_progress_count = 1 ∧
    (∀ i, ((afterPublic (publicTrace.take 5)).scopes i)._processQueueTimer = false) ∧
    (∀ i, step (afterPublic (publicTrace.take 5)) (Action.timerFired i) = none) ∧
    (∀ k err response w1,
      publicStep (afterPublic (publicTrace.take 5)) (PublicCall.completed k err response)
        = some w1 →
      w1._queue = (afterPublic (publicTrace.take 5))._queue ∧
      w1.heap = (afterPublic (publicTrace.take 5)).heap ∧
      w1.ajax = (afterPublic (publicTrace.take 5)).ajax.eraseIdx k) ∧
    (∀ c w1 r, publicStep (afterPublic (publicTrace.take 5)) c = some w1 →
      r ∈ (afterPublic (publicTrace.take 5))._queue → (w1.heap r).handle ≠ none →
      c.isSubmission = true) :=
  ⟨rfl, by decide, by decide,
    C20_no_timer_is_ever_armed 100 (publicTrace.take 5) (afterPublic (publicTrace.take 5)) rfl⟩

/-! ## The queue of a reachable state: ordered, nothing cancelled in it -/

theorem ordered_congr (h1 h2 : Nat → Request) (q : List Nat)
    (h : ∀ r ∈ q, (h2 r).priority = (h1 r).priority) (ho : Ordered h1 q) : Ordered h2 q := by
  unfold Ordered at *
  refine List.Pairwise.imp_of_mem ?_ ho
  intro a b ha hb hab
  rw [h a ha, h b hb]
  exact hab

theorem objGet_mem (m : List (Nat × Nat)) (k v : Nat) (h : objGet m k = some v) :
    (k, v) ∈ m := by
  induction m with
  | nil => simp [objGet] at h
  | cons e rest ih =>
    obtain ⟨k1, v1⟩ := e
    simp only [objGet] at h
    split at h
    · rename_i hk
      simp only [Option.some.injEq] at h
      subst hk; subst h
      exact List.mem_cons_self _ _
    · exact List.mem_cons_of_mem _ (ih h)

/-- The first loop of `cancel` writes only to request objects that are values of the map. -/
theorem cancelInProgress_untouched (id : Nat) (keys : List Nat)
    (st : (Nat → Request) × List (Nat × Nat) × Int) (r : Nat)
    (hr : r ∉ st.2.1.map Prod.snd) : (cancelInProgress id keys st).1 r = st.1 r := by
  induction keys generalizing st with
  | nil => rfl
  | cons key keys ih =>
    obtain ⟨heap, in_progress, count⟩ := st
    simp only [cancelInProgress]
    split
    · exact ih _ hr
    · rename_i request hget
      split
      · have hne : r ≠ request := by
          intro e
          subst e
          exact hr (List.mem_map_of_mem Prod.snd (objGet_mem _ _ _ hget))
        rw [ih (_cancelRequest heap request, objDelete in_progress key, count - 1) (by
          intro hm
          exact hr ((List.Sublist.map Prod.snd (objDelete_sublist in_progress key)).subset hm))]
        exact cancelRequest_other heap request r hne
      · exact ih _ hr

theorem cancelOwn_untouched (w : World) (self r : Nat) (hr : r ∉ inFlight w self) :
    (cancelOwnInProgress w self).heap r = w.heap r :=
  cancelInProgress_untouched (w.scopes self)._id _
    (w.heap, (w.scopes self)._requests_in_progress, (w.scopes self)._requests_in_progress_count)
    r hr

/-- One turn of the drain loop, with the queue it leaves named: the array after `next()`. -/
theorem processTurn_next (w : World) (self : Nat) (w1 : World)
    (h : processTurn w self = some w1) :
    ∃ x rest, w._queue = x :: rest ∧
      (((w.heap x).is_cancelled = true ∧
          w1 = { w with _queue := (next w.comparer (x :: rest)).2 }) ∨
       ((w.heap x).is_cancelled = false ∧
          w1 = _doRequest { w with _queue := (next w.comparer (x :: rest)).2 } self x)) := by
  unfold processTurn at h
  simp only at h
  cases hq : w._queue with
  | nil => simp [hq, next] at h
  | cons x rest =>
    rw [hq, (next_cons w.comparer x rest).1] at h
    simp only [Option.some.injEq] at h
    refine ⟨x, rest, rfl, ?_⟩
    cases hc : (w.heap x).is_cancelled with
    | true => left; simp [hc] at h; exact ⟨rfl, h.symm⟩
    | false => right; simp [hc] at h; exact ⟨rfl, h.symm⟩

theorem doRequest_heap (w : World) (self x r : Nat) :
    (_doRequest w self x).heap r
      = { w.heap r with handle := ((_doRequest w self x).heap r).handle } := by
  by_cases e : r = x
  · subst e; simp [_doRequest]
  · simp [_doRequest, Function.update_noteq e]

theorem doRequest_priority (w : World) (self x r : Nat) :
    ((_doRequest w self x).heap r).priority = (w.heap r).priority := by
  rw [doRequest_heap]

theorem doRequest_is_cancelled (w : World) (self x r : Nat) :
    ((_doRequest w self x).heap r).is_cancelled = (w.heap r).is_cancelled := by
  rw [doRequest_heap]

theorem doRequest_id (w : World) (self x r : Nat) :
    ((_doRequest w self x).heap r).id = (w.heap r).id := by
  rw [doRequest_heap]

theorem queueLive_preserved : Preserved (fun w => Good w ∧ QueueLive w) where
  enqueue := by
    intro w self method url data options done guid hp
    refine ⟨good_preserved.enqueue w self method url data options done guid hp.1, ?_, ?_⟩
    · have hold : Ordered (w.alloc (newRequest w self method url data options done guid)).heap
          w._queue := by
        refine ordered_congr w.heap _ _ (fun r hr => ?_) hp.2.1
        have := (hp.1.queued r hr).1
        simp [World.alloc, Function.update_noteq (Nat.ne_of_lt this)]
      exact add_ordered _ w._queue w.allocated hold
    · intro r hr
      rcases List.mem_cons.mp ((add_perm _ _ _).mem_iff.mp hr) with e | e
      · subst e
        simp [queueAdd, World.alloc, newRequest]
      · have := (hp.1.queued r e).1
        simpa [queueAdd, World.alloc, Function.update_noteq (Nat.ne_of_lt this)]
          using hp.2.2 r e
  turn := by
    intro w self w1 hp hs h
    refine ⟨good_preserved.turn w self w1 hp.1 hs h, ?_⟩
    obtain ⟨x, rest, hq, hc | hc⟩ := processTurn_next w self w1 h
    · rw [hc.2]
      have ho : Ordered w.heap (next w.comparer (x :: rest)).2 := by
        have := next_ordered w.heap w._queue hp.2.1
        rw [hq] at this
        exact this
      refine ⟨ho, fun r hr => hp.2.2 r ?_⟩
      rw [hq]
      exact List.mem_cons_of_mem _ ((next_cons w.comparer x rest).2.mem_iff.mp hr)
    · rw [hc.2]
      have ho : Ordered w.heap (next w.comparer (x :: rest)).2 := by
        have := next_ordered w.heap w._queue hp.2.1
        rw [hq] at this
        exact this
      refine ⟨ordered_congr w.heap _ _ (fun r _ => doRequest_priority _ self x r) ho,
        fun r hr => ?_⟩
      rw [doRequest_is_cancelled]
      apply hp.2.2 r
      rw [hq]
      exact List.mem_cons_of_mem _ ((next_cons w.comparer x rest).2.mem_iff.mp hr)
  setTimer := fun w self hp => ⟨good_preserved.setTimer w self hp.1, hp.2⟩
  elapsed := fun w self hp => ⟨good_preserved.elapsed w self hp.1, hp.2⟩
  completed := fun w k self request err response hp hk =>
    ⟨good_preserved.completed w k self request err response hp.1 hk, hp.2⟩
  cancelOwn := by
    intro w self hp
    refine ⟨good_preserved.cancelOwn w self hp.1, ?_, ?_⟩
    · exact ordered_congr w.heap _ _ (fun r _ => (cancelOwn_stable_any w self r).priority)
        hp.2.1
    · intro r hr
      have hr1 : r ∈ w._queue := hr
      rw [cancelOwn_untouched w self r]
      · exact hp.2.2 r hr1
      · intro hm
        obtain ⟨kv, hkv, e⟩ := List.mem_map.mp hm
        exact (hp.1.in_progress self kv hkv).2 (by rw [e]; exact (hp.1.queued r hr1).2)
  cancelOne := by
    intro w self i request hp hs
    refine ⟨good_preserved.cancelOne w self i request hp.1 hs, ?_, ?_⟩
    · have hold : Ordered (_cancelRequest w.heap request) w._queue :=
        ordered_congr w.heap _ _ (fun r _ => (cancelRequest_stable w.heap request r).priority)
          hp.2.1
      exact removeAtIndex_ordered _ w._queue i hold
    · obtain ⟨s1, -, -⟩ := cancelScan_spec w.heap (w.scopes self)._id w._queue
        (count w._queue) 0 (by simp [count])
      have hperm : (request :: (cancelQueued w i request)._queue).Perm w._queue :=
        removeAtIndex_perm_cons _ w._queue i request (s1 i request hs).1
      have hnd := List.nodup_cons.mp (hperm.nodup_iff.mpr hp.1.queue_nodup)
      intro r hr
      have hne : r ≠ request := fun e => hnd.1 (e ▸ hr)
      show (_cancelRequest w.heap request r).is_cancelled = false
      rw [cancelRequest_other w.heap request r hne]
      exact hp.2.2 r (hperm.mem_iff.mp (List.mem_cons_of_mem _ hr))
  tagged := fun w self guid hp => ⟨good_preserved.tagged w self guid hp.1, hp.2⟩

/-- In every reachable state the queue is ordered by priority and holds no cancelled request:
`cancel` takes out of the queue every request it marks there. -/
theorem queueLive_reachable (guid : Nat) (acts : List Action) (w : World)
    (h : run (World.init guid) acts = some w) : QueueLive w :=
  (queueLive_preserved.run acts _ w ⟨good_init guid,
    ⟨List.Pairwise.nil, fun r hr => by simp [World.init] at hr⟩⟩ h).2

/-! ## One run of the drain loop -/

theorem objSet_self (m : List (Nat × Nat)) (k v : Nat) : (k, v) ∈ objSet m k v := by
  induction m with
  | nil => simp [objSet]
  | cons e rest ih =>
    obtain ⟨k1, v1⟩ := e
    simp only [objSet]
    split
    · rename_i hk
      subst hk
      exact List.mem_cons_self _ _
    · exact List.mem_cons_of_mem _ ih

theorem objSet_keep (m : List (Nat × Nat)) (k v : Nat) (kv : Nat × Nat) (h : kv ∈ m)
    (hk : kv.1 ≠ k) : kv ∈ objSet m k v := by
  induction m with
  | nil => simp at h
  | cons e rest ih =>
    obtain ⟨k1, v1⟩ := e
    simp only [objSet]
    rcases List.mem_cons.mp h with e1 | e1
    · subst e1
      rw [if_neg hk]
      exact List.mem_cons_self _ _
    · split
      · exact List.mem_cons_of_mem _ e1
      · exact List.mem_cons_of_mem _ (ih e1)

theorem processTurn_live (w : World) (self x : Nat) (rest : List Nat)
    (hq : w._queue = x :: rest) (hc : (w.heap x).is_cancelled = false) :
    processTurn w self
      = some (_doRequest { w with _queue := (next w.comparer (x :: rest)).2 } self x) := by
  unfold processTurn
  simp only [hq, (next_cons w.comparer x rest).1, hc]
  rfl

theorem shouldProcessQueue_iff (w : World) (self : Nat) :
    _shouldProcessQueue w self = true ↔
      w._queue ≠ [] ∧
      (w.scopes self)._requests_in_progress_count < (w.scopes self)._max_requests := by
  unfold _shouldProcessQueue
  cases hq : w._queue with
  | nil => simp [peek]
  | cons x rest =>
    simp only [peek, List.length_cons, Nat.le_zero_eq, Nat.add_one_ne_zero, if_false,
      List.getElem?_cons_zero, ne_eq, not_false_eq_true, true_and, reduceCtorEq]
    split
    · simp; omega
    · simp; omega

/-- What the drain loop does to a state whose queue is ordered, holds no cancelled request and
holds no request twice: with fuel at least the length of the queue it returns, having dispatched
the list `taken`, in this order. When the queued requests have pairwise distinct ids, no write
to the map replaces an entry written earlier in the same run. -/
theorem processLoop_dispatches (n : Nat) (w : World) (self : Nat)
    (hn : w._queue.length ≤ n) (ho : Ordered w.heap w._queue)
    (hl : ∀ r ∈ w._queue, (w.heap r).is_cancelled = false)
    (hnd : w._queue.Nodup) :
    ∃ w1 taken, processLoop n w self = some w1 ∧
      taken.length = min w._queue.length
        ((w.scopes self)._max_requests - (w.scopes self)._requests_in_progress_count).toNat ∧
      w._queue.Perm (taken ++ w1._queue) ∧
      w1.ajax = w.ajax ++ taken.map (fun r => (self, r)) ∧
      (w1.scopes self)._requests_in_progress_count
        = (w.scopes self)._requests_in_progress_count + (taken.length : Int) ∧
      (∀ r, w1.heap r = { w.heap r with handle := (w1.heap r).handle }) ∧
      (∀ r, r ∉ taken → w1.heap r = w.heap r) ∧
      (∀ r ∈ taken, (w1.heap r).handle = some { aborted := 0 }) ∧
      ((w._queue.map (fun r => (w.heap r).id)).Nodup →
        (∀ r ∈ taken, ((w.heap r).id, r) ∈ (w1.scopes self)._requests_in_progress) ∧
        (∀ kv ∈ (w.scopes self)._requests_in_progress,
          (∀ r ∈ taken, (w.heap r).id ≠ kv.1) →
          kv ∈ (w1.scopes self)._requests_in_progress)) ∧
      (∀ r ∈ taken, ∀ s ∈ w1._queue, (w.heap s).priority ≤ (w.heap r).priority) := by
  induction n generalizing w with
  | zero =>
    have hq : w._queue = [] := List.length_eq_zero.mp (Nat.le_zero.mp hn)
    refine ⟨w, [], by simp [processLoop, shouldProcessQueue_nil w self hq], by simp [hq],
      by simp, by simp, by simp, fun r => rfl, fun r _ => rfl, by simp,
      fun _ => ⟨by simp, fun kv h _ => h⟩, by simp⟩
  | succ n ih =>
    cases hs : _shouldProcessQueue w self with
    | false =>
      have hk : min w._queue.length
          ((w.scopes self)._max_requests - (w.scopes self)._requests_in_progress_count).toNat
          = 0 := by
        have := (shouldProcessQueue_iff w self).not.mp (by simp [hs])
        by_cases hq : w._queue = []
        · simp [hq]
        · have hc : ¬ (w.scopes self)._requests_in_progress_count
              < (w.scopes self)._max_requests := fun h => this ⟨hq, h⟩
          omega
      refine ⟨w, [], by simp [processLoop, hs], by simp [hk], by simp, by simp, by simp,
        fun r => rfl, fun r _ => rfl, by simp, fun _ => ⟨by simp, fun kv h _ => h⟩, by simp⟩
    | true =>
      obtain ⟨hne, hroom⟩ := (shouldProcessQueue_iff w self).mp hs
      obtain ⟨x, rest, hq⟩ := List.exists_cons_of_ne_nil hne
      have hx : (w.heap x).is_cancelled = false := hl x (by rw [hq]; exact List.mem_cons_self _ _)
      have hturn := processTurn_live w self x rest hq hx
      obtain ⟨-, hperm⟩ := next_cons w.comparer x rest
      have hord : Ordered w.heap (next w.comparer (x :: rest)).2 := by
        have := next_ordered w.heap w._queue ho
        rw [hq] at this
        exact this
      have hsub : ∀ r ∈ (next w.comparer (x :: rest)).2, r ∈ rest :=
        fun r hr => hperm.mem_iff.mp hr
      rw [hq] at hnd ho
      rw [List.nodup_cons] at hnd
      unfold Ordered at ho
      rw [List.pairwise_cons] at ho
      -- the state after the first turn
      have hn1 : (_doRequest { w with _queue := (next w.comparer (x :: rest)).2 } self
          x)._queue.length ≤ n := by
        show (next w.comparer (x :: rest)).2.length ≤ n
        rw [hperm.length_eq]
        rw [hq] at hn
        simpa using hn
      have ho1 : Ordered
          (_doRequest { w with _queue := (next w.comparer (x :: rest)).2 } self x).heap
          (_doRequest { w with _queue := (next w.comparer (x :: rest)).2 } self x)._queue :=
        ordered_congr w.heap _ _ (fun r _ => doRequest_priority _ self x r) hord
      have hl1 : ∀ r ∈ (_doRequest { w with _queue := (next w.comparer (x :: rest)).2 } self
          x)._queue,
          ((_doRequest { w with _queue := (next w.comparer (x :: rest)).2 } self x).heap
            r).is_cancelled = false := by
        intro r hr
        rw [doRequest_is_cancelled]
        exact hl r (by rw [hq]; exact List.mem_cons_of_mem _ (hsub r hr))
      have hnd1 : (_doRequest { w with _queue := (next w.comparer (x :: rest)).2 } self
          x)._queue.Nodup := by
        show (next w.comparer (x :: rest)).2.Nodup
        exact hperm.nodup_iff.mpr hnd.2
      have hids : (fun r =>
          ((_doRequest { w with _queue := (next w.comparer (x :: rest)).2 } self x).heap
            r).id) = fun r => (w.heap r).id := by
        funext r
        exact doRequest_id _ self x r
      obtain ⟨w1, taken, hloop, hlen, hp1, hajax, hcount, hheap, hsame, hhandle, hmap,
        hprio⟩ := ih _ hn1 ho1 hl1 hnd1
      have hq1 : (_doRequest { w with _queue := (next w.comparer (x :: rest)).2 } self
          x)._queue = (next w.comparer (x :: rest)).2 := rfl
      have hc1 : ((_doRequest { w with _queue := (next w.comparer (x :: rest)).2 } self
          x).scopes self)._requests_in_progress_count
          = (w.scopes self)._requests_in_progress_count + 1 := by
        simp [_doRequest]
      have hm1 : ((_doRequest { w with _queue := (next w.comparer (x :: rest)).2 } self
          x).scopes self)._max_requests = (w.scopes self)._max_requests := by
        simp [_doRequest]
      have hmap1 : ((_doRequest { w with _queue := (next w.comparer (x :: rest)).2 } self
          x).scopes self)._requests_in_progress
          = objSet (w.scopes self)._requests_in_progress (w.heap x).id x := by
        simp [_doRequest]
      have hajax1 : (_doRequest { w with _queue := (next w.comparer (x :: rest)).2 } self
          x).ajax = w.ajax ++ [(self, x)] := rfl
      have htaken : ∀ r ∈ taken, r ∈ rest := by
        intro r hr
        apply hsub
        rw [← hq1]
        exact hp1.mem_iff.mpr (List.mem_append_left _ hr)
      have hleft : ∀ s ∈ w1._queue, s ∈ rest := by
        intro s hs1
        apply hsub
        rw [← hq1]
        exact hp1.mem_iff.mpr (List.mem_append_right _ hs1)
      have hxr : ∀ r ∈ taken, r ≠ x := by
        intro r hr e
        exact hnd.1 (e ▸ htaken r hr)
      refine ⟨w1, x :: taken, ?_, ?_, ?_, ?_, ?_, ?_, ?_, ?_, ?_, ?_⟩
      · simp only [processLoop, hs, if_true, hturn]
        exact hloop
      · rw [hq1, hc1, hm1, hperm.length_eq] at hlen
        rw [hq]
        simp only [List.length_cons, hlen]
        omega
      · rw [hq]
        exact List.Perm.cons x (hperm.symm.trans (by rw [hq1] at hp1; exact hp1))
      · rw [hajax, hajax1]
        simp
      · rw [hcount, hc1]
        simp only [List.length_cons, Nat.cast_add, Nat.cast_one]
        omega
      · intro r
        rw [hheap r, doRequest_heap]
      · intro r hr
        simp only [List.mem_cons, not_or] at hr
        rw [hsame r hr.2]
        simp [_doRequest, Function.update_noteq hr.1]
      · intro r hr
        rcases List.mem_cons.mp hr with e | e
        · subst e
          rw [hsame r (fun hm => hxr r hm rfl)]
          simp [_doRequest]
        · exact hhandle r e
      · intro hid
        rw [hq] at hid
        simp only [List.map_cons, List.nodup_cons] at hid
        have hidx : ∀ r ∈ taken, (w.heap r).id ≠ (w.heap x).id := by
          intro r hr e
          exact hid.1 (by rw [← e]; exact List.mem_map_of_mem _ (htaken r hr))
        obtain ⟨hstored, hframe⟩ := hmap (by
          rw [hids]
          exact (List.Perm.map _ hperm).nodup_iff.mpr hid.2)
        refine ⟨fun r hr => ?_, fun kv hkv hk => ?_⟩
        · rcases List.mem_cons.mp hr with e | e
          · subst e
            apply hframe
            · rw [hmap1]
              exact objSet_self _ _ _
            · intro r1 hr1
              rw [doRequest_id]
              exact hidx r1 hr1
          · have := hstored r e
            rw [doRequest_id] at this
            exact this
        · apply hframe
          · rw [hmap1]
            exact objSet_keep _ _ _ kv hkv (Ne.symm (hk x (List.mem_cons_self _ _)))
          · intro r1 hr1
            rw [doRequest_id]
            exact hk r1 (List.mem_cons_of_mem _ hr1)
      · intro r hr s hs1
        rcases List.mem_cons.mp hr with e | e
        · subst e
          exact ho.1 s (hleft s hs1)
        · have := hprio r e s hs1
          rw [doRequest_priority, doRequest_priority] at this
          exact this

/-- C17: in every reachable state (there the queue is ordered by priority and holds no
cancelled request), with `c` the in-flight count and `m` the ceiling of the instance, one run
of `_processQueue` (with either value of `kicked`) returns and dispatches a list `taken` of
exactly `min(|q|, max(0, m - c))` requests, without repetition: they and the requests left in
the queue make up the old queue, none of them is left in it, each got a fresh handle and an
outstanding transport call (in this order, after the calls already outstanding), the count went
up by their number, and each of them has a priority at least that of every request left in the
queue. When the queued requests have pairwise distinct ids, as the GUID generator is taken to
give, each of them is in `_requests_in_progress` under its id. -/
theorem C17_drain_dispatches_by_priority (guid : Nat) (acts : List Action) (w : World)
    (h : run (World.init guid) acts = some w) (self : Nat) (kicked : Bool) :
    ∃ w1 taken, _processQueue w self kicked = some w1 ∧
      taken.length = min w._queue.length
        ((w.scopes self)._max_requests - (w.scopes self)._requests_in_progress_count).toNat ∧
      taken.Nodup ∧
      w._queue.Perm (taken ++ w1._queue) ∧
      (∀ r ∈ taken, r ∉ w1._queue) ∧
      w1.ajax = w.ajax ++ taken.map (fun r => (self, r)) ∧
      (w1.scopes self)._requests_in_progress_count
        = (w.scopes self)._requests_in_progress_count + (taken.length : Int) ∧
      (∀ r ∈ taken, (w1.heap r).handle = some { aborted := 0 }) ∧
      ((w._queue.map (fun r => (w.heap r).id)).Nodup →
        ∀ r ∈ taken, ((w.heap r).id, r) ∈ (w1.scopes self)._requests_in_progress) ∧
      (∀ r ∈ taken, ∀ s ∈ w1._queue, (w.heap s).priority ≤ (w.heap r).priority) := by
  have hlive := queueLive_reachable guid acts w h
  have hq : w._queue.Nodup := (good_reachable guid acts w h).queue_nodup
  obtain ⟨w1, taken, hloop, hlen, hperm, hajax, hcount, -, -, hhandle, hmap, hprio⟩ :=
    processLoop_dispatches w._queue.length w self (Nat.le_refl _) hlive.1 hlive.2 hq
  have hnd : (taken ++ w1._queue).Nodup := hperm.nodup_iff.mp hq
  have hdisj := List.nodup_append.mp hnd
  cases kicked with
  | true =>
    refine ⟨w1, taken, by simp [_processQueue, hloop], hlen, hdisj.1, hperm,
      fun r hr hr2 => hdisj.2.2 hr hr2, hajax, hcount, hhandle,
      fun hid => (hmap hid).1, hprio⟩
  | false =>
    refine ⟨_setQueueTimer w1 self, taken, by simp [_processQueue, hloop], hlen, hdisj.1, hperm,
      fun r hr hr2 => hdisj.2.2 hr hr2, hajax, ?_, hhandle, fun hid r hr => ?_, hprio⟩
    · simpa [_setQueueTimer] using hcount
    · simpa [_setQueueTimer] using (hmap hid).1 r hr

/-- C17 at the state after `slotTrace`: the requests of priorities 7 and 5, of ids 4 and 3,
are queued and one slot is free. -/
theorem C17_drain_dispatches_by_priority_witness :
    run (World.init 100) slotTrace = some (after slotTrace) ∧
    (after slotTrace)._queue = [3, 2] ∧
    (after slotTrace)._queue.map (fun r => ((after slotTrace).heap r).priority) = [7, 5] ∧
    (after slotTrace)._queue.map (fun r => ((after slotTrace).heap r).id) = [4, 3] ∧
    ((after slotTrace).scopes 0)._max_requests
      - ((after slotTrace).scopes 0)._requests_in_progress_count = 1 ∧
    ∃ w1 taken, _processQueue (after slotTrace) 0 true = some w1 ∧
      taken.length = min (after slotTrace)._queue.length
        (((after slotTrace).scopes 0)._max_requests
          - ((after slotTrace).scopes 0)._requests_in_progress_count).toNat ∧
      taken.Nodup ∧
      (after slotTrace)._queue.Perm (taken ++ w1._queue) ∧
      (∀ r ∈ taken, r ∉ w1._queue) ∧
      w1.ajax = (after slotTrace).ajax ++ taken.map (fun r => (0, r)) ∧
      (w1.scopes 0)._requests_in_progress_count
        = ((after slotTrace).scopes 0)._requests_in_progress_count + (taken.length : Int) ∧
      (∀ r ∈ taken, (w1.heap r).handle = some { aborted := 0 }) ∧
      (((after slotTrace)._queue.map (fun r => ((after slotTrace).heap r).id)).Nodup →
        ∀ r ∈ taken,
          (((after slotTrace).heap r).id, r) ∈ (w1.scopes 0)._requests_in_progress) ∧
      (∀ r ∈ taken, ∀ s ∈ w1._queue,
        ((after slotTrace).heap s).priority ≤ ((after slotTrace).heap r).priority) :=
  ⟨rfl, by decide, by decide, by decide, by decide,
    C17_drain_dispatches_by_priority 100 slotTrace (after slotTrace) rfl 0 true⟩

end Restque
